import Mathlib

/-!
Verification of the Docker build-log parser (`log_parser.py`) of the
docker-build-waterfall repository.

The Python source is shallowly embedded as executable Lean definitions:

* Log lines are `List Char`; whole documents are `String`.
* Points in time are modelled by `Timestamp`: an integer count of
  microseconds since the epoch (Python `datetime` has microsecond
  resolution) together with an `aware` flag recording whether the value
  carries timezone information.  Subtraction of a timezone-aware and a
  naive `datetime` raises `TypeError` in Python; the embedding models
  this by a partial subtraction.  Ordering comparisons are totalised on
  the microsecond value (they agree with Python whenever the compared
  values have equal awareness).
* Durations (Python floats in seconds) are integer microseconds; the
  decimal duration literals of the logs are exact at this resolution.
* Fallible computations return `Option`: `none` models an uncaught
  Python exception escaping the function.
* Python dicts are insertion-ordered association lists (`dictSet`
  replaces in place, preserving the position of an existing key, and
  appends fresh keys, exactly like dict assignment).
* The regular expressions of the source are hand-compiled to
  deterministic matchers.  Greedy and lazy quantifier behaviour
  (backtracking) was traced by hand and is reproduced; comments at the
  individual matchers record the reasoning.
-/

/-! ## Basic character and string helpers (Python `str` semantics) -/

/-- Python whitespace class (`\s`, `str.strip`), ASCII part. -/
def isPySpace (c : Char) : Bool :=
  c = ' ' || c = '\t' || c = '\n' || c = '\r' || c = '\x0b' || c = '\x0c'

/-- Python `str.strip()`: drop whitespace from both ends. -/
def pyStrip (l : List Char) : List Char :=
  ((l.dropWhile isPySpace).reverse.dropWhile isPySpace).reverse

/-- Python `str.split('\n')`: split at every newline, keeping empty pieces;
always returns at least one piece. -/
def splitOnNl : List Char → List (List Char)
  | [] => [[]]
  | c :: t =>
    match splitOnNl t with
    | [] => [[c]]
    | h :: hs => if c = '\n' then [] :: h :: hs else (c :: h) :: hs

/-- Substring test, Python `pat in s` for nonempty `pat`. -/
def hasInfix (pat : List Char) : List Char → Bool
  | [] => pat.isEmpty
  | c :: t => pat.isPrefixOf (c :: t) || hasInfix pat t

/-- Python `str.split(sep, maxsplit)` for a one-character separator:
consecutive separators yield empty pieces; after `maxsplit` splits the
remainder is one piece. -/
def pySplitChar (sep : Char) : Nat → List Char → List (List Char)
  | 0, l => [l]
  | Nat.succ m, l =>
    match l.span (fun c => !(c = sep)) with
    | (piece, []) => [piece]
    | (piece, _ :: rest) => piece :: pySplitChar sep m rest

/-- Python `' '.join(parts)`. -/
def joinSpace : List (List Char) → List Char
  | [] => []
  | [p] => p
  | p :: q :: t => p ++ ' ' :: joinSpace (q :: t)

/-! ## Small parsing combinators for the hand-compiled regexes -/

/-- Consume one expected character. -/
def eatChar (c : Char) : List Char → Option (List Char)
  | x :: t => if x = c then some t else none
  | [] => none

/-- Consume an exact literal. -/
def eatLit (pat : List Char) (l : List Char) : Option (List Char) :=
  if pat.isPrefixOf l then some (l.drop pat.length) else none

/-- Consume `\d+` greedily (at least one ASCII digit). -/
def eatDigits1 (l : List Char) : Option (List Char × List Char) :=
  match l with
  | c :: t =>
    if c.isDigit then
      some (c :: t.takeWhile Char.isDigit, t.dropWhile Char.isDigit)
    else none
  | [] => none

/-- Consume exactly `n` digits (`\d{n}`), returning their numeric value. -/
def eatDigitsN : Nat → List Char → Option (Nat × List Char)
  | 0, l => some (0, l)
  | Nat.succ m, c :: t =>
    if c.isDigit then
      match eatDigitsN m t with
      | some (v, r) => some ((c.toNat - 48) * 10 ^ m + v, r)
      | none => none
    else none
  | Nat.succ _, [] => none

/-- Consume `\s+` greedily. -/
def eatWs1 (l : List Char) : Option (List Char) :=
  match l with
  | c :: t => if isPySpace c then some (t.dropWhile isPySpace) else none
  | [] => none

/-- Numeric value of a digit list (most significant digit first). -/
def digitsVal (l : List Char) : Nat :=
  l.foldl (fun a c => a * 10 + (c.toNat - 48)) 0

/-! ## Time model -/

/-- A Python `datetime`: microseconds since the epoch, plus whether the
value is timezone-aware.  Aware values store the UTC instant. -/
structure Timestamp where
  usec : Int
  aware : Bool
deriving DecidableEq, Repr

/-- Python `datetime + timedelta(seconds=...)` (duration in microseconds);
awareness is preserved. -/
def tsAdd (t : Timestamp) (d : Int) : Timestamp :=
  { usec := t.usec + d, aware := t.aware }

/-- Python `datetime` subtraction, in microseconds.  Subtracting an aware
and a naive `datetime` raises `TypeError`; this is modelled by `none`. -/
def tsSub (a b : Timestamp) : Option Int :=
  if a.aware = b.aware then some (a.usec - b.usec) else none

/-- Components captured by the timestamp regular expression
`^(\d-digit date[T\s]time(.frac)?(Z|+-hh:mm)?)\s+` of the source. -/
inductive ZoneSpec where
  | noZone : ZoneSpec
  | zulu : ZoneSpec
  | offs (neg : Bool) (h m : Nat) : ZoneSpec
deriving DecidableEq, Repr

structure DateParts where
  year : Nat
  month : Nat
  day : Nat
  hour : Nat
  minute : Nat
  second : Nat
  frac : List Char
  zone : ZoneSpec
deriving DecidableEq, Repr

/-- Shape matcher for `TIMESTAMP_PATTERN`.  The regex is anchored at the
start; the optional fraction and zone groups are deterministic because a
digit run cannot continue into `Z`, a sign or whitespace, so no
backtracking across groups is possible.  The trailing `\s+` is greedy, so
the whole match (which the source strips with `re.sub`) extends past all
following whitespace.  Returns the captured components and the suffix
after the whole match. -/
def tsShape (l : List Char) : Option (DateParts × List Char) := do
  let (y, r) ← eatDigitsN 4 l
  let r ← eatChar '-' r
  let (mo, r) ← eatDigitsN 2 r
  let r ← eatChar '-' r
  let (d, r) ← eatDigitsN 2 r
  let r ← match r with
    | c :: t => if c = 'T' || isPySpace c then some t else none
    | [] => none
  let (h, r) ← eatDigitsN 2 r
  let r ← eatChar ':' r
  let (mi, r) ← eatDigitsN 2 r
  let r ← eatChar ':' r
  let (s, r) ← eatDigitsN 2 r
  let (fr, r) :=
    match r with
    | '.' :: t =>
      match eatDigits1 t with
      | some (ds, r2) => (ds, r2)
      | none => (([] : List Char), r)
    | _ => (([] : List Char), r)
  let (z, r) :=
    match r with
    | 'Z' :: t => (ZoneSpec.zulu, t)
    | c :: t =>
      if c = '+' || c = '-' then
        match eatDigitsN 2 t with
        | some (zh, r2) =>
          match eatChar ':' r2 with
          | some r3 =>
            match eatDigitsN 2 r3 with
            | some (zm, r4) => (ZoneSpec.offs (c = '-') zh zm, r4)
            | none => (ZoneSpec.noZone, c :: t)
          | none => (ZoneSpec.noZone, c :: t)
        | none => (ZoneSpec.noZone, c :: t)
      else (ZoneSpec.noZone, c :: t)
    | [] => (ZoneSpec.noZone, [])
  let r ← eatWs1 r
  pure ({ year := y, month := mo, day := d, hour := h, minute := mi,
          second := s, frac := fr, zone := z }, r)

/-- Gregorian leap year. -/
def isLeap (y : Nat) : Bool :=
  y % 4 = 0 && (y % 100 ≠ 0 || y % 400 = 0)

def daysInMonth (y m : Nat) : Nat :=
  if m = 2 then (if isLeap y then 29 else 28)
  else if m = 4 || m = 6 || m = 9 || m = 11 then 30
  else 31

/-- Days since 1970-01-01 of a civil date (proleptic Gregorian, the
standard civil-from-days inverse used by `datetime`). -/
def daysFromCivil (y m d : Int) : Int :=
  let ya := if m ≤ 2 then y - 1 else y
  let era := Int.fdiv ya 400
  let yoe := ya - era * 400
  let doy := Int.fdiv (153 * (m + (if 2 < m then -3 else 9)) + 2) 5 + d - 1
  let doe := yoe * 365 + Int.fdiv yoe 4 - Int.fdiv yoe 100 + doy
  era * 146097 + doe - 719468

/-- Microseconds denoted by a fractional-second digit string: `datetime`
resolution is one microsecond, further digits are truncated. -/
def fracUsec (fr : List Char) : Nat :=
  digitsVal (fr.take 6 ++ List.replicate (6 - (fr.take 6).length) '0')

/-- Modelled from the behaviour of the external `dateutil.parser.parse`
on strings of the matched shape (this library call is not part of the
repository): calendar components are range-checked (a `datetime` is
constructed, so an out-of-range month, day, hour, minute or second
raises, modelled as `none`), a zone suffix produces a timezone-aware
value, and the result is exact to the microsecond. -/
def parseDate (p : DateParts) : Option Timestamp :=
  if 1 ≤ p.year ∧ p.year ≤ 9999 ∧ 1 ≤ p.month ∧ p.month ≤ 12 ∧
     1 ≤ p.day ∧ p.day ≤ daysInMonth p.year p.month ∧
     p.hour ≤ 23 ∧ p.minute ≤ 59 ∧ p.second ≤ 59 then
    match p.zone with
    | ZoneSpec.noZone =>
      some { usec := baseUsec p, aware := false }
    | ZoneSpec.zulu =>
      some { usec := baseUsec p, aware := true }
    | ZoneSpec.offs neg zh zm =>
      if zh * 60 + zm < 1440 then
        let off : Int := (zh * 3600 + zm * 60 : Nat) * 1000000
        some { usec := baseUsec p + (if neg then off else -off), aware := true }
      else none
  else none
where
  baseUsec (p : DateParts) : Int :=
    (daysFromCivil p.year p.month p.day * 86400 +
      (p.hour * 3600 + p.minute * 60 + p.second : Nat)) * 1000000 + fracUsec p.frac

/-- Source `_extract_timestamp`: shape match, then semantic parsing; a
parsing failure is swallowed by `try/except` and yields `None`. -/
def extract_timestamp (l : List Char) : Option Timestamp :=
  match tsShape l with
  | some (p, _) => parseDate p
  | none => none

/-- Source `TIMESTAMP_PATTERN.sub('', line)`: the pattern is anchored, so
this removes the matched leading span (shape match only, independent of
semantic validity) or leaves the line unchanged. -/
def strip_timestamp (l : List Char) : List Char :=
  match tsShape l with
  | some (_, rest) => rest
  | none => l

/-! ## The BuildStep record (source dataclass `BuildStep`) -/

structure BuildStep where
  step_id : String
  description : String
  start_time : Option Timestamp
  end_time : Option Timestamp
  duration : Option Int
  step_type : String
  layer_info : String
  is_cached : Bool
  parent_steps : List String := []
deriving DecidableEq, Repr

/-! ## Hand-compiled BuildKit line matchers

Every BuildKit pattern starts with `#(\d+)\s+`.  The captured id digits
are kept verbatim (the source builds the id as an f-string around
`group(1)`, so leading zeros survive). -/

/-- Leading `#(\d+)` of every BuildKit pattern. -/
def matchHashId (l : List Char) : Option (List Char × List Char) :=
  match l with
  | c :: t => if c = '#' then eatDigits1 t else none
  | [] => none

/-- Shared shape of the id-capturing BuildKit matchers: the leading
`#(\d+)` capture, then a pattern-specific remainder parser. -/
def withHashId {γ : Type} (g : List Char → Option γ) (l : List Char) :
    Option (List Char × γ) := do
  let (idd, r) ← matchHashId l
  let z ← g r
  pure (idd, z)

/-- Split the inside of `\[([^\]]+)\s+(\d+/\d+)\]`.  The label group is
greedy, so it absorbs everything up to a single whitespace before the
final `digits/digits` run that reaches the closing bracket; both digit
runs are maximal because a shorter run would leave a digit where the
regex requires whitespace or a slash. -/
def splitBracketKM (content : List Char) : Option (List Char × List Char) := do
  let rev := content.reverse
  let d2 := rev.takeWhile Char.isDigit
  if d2 = [] then none else
  let r1 ← eatChar '/' (rev.dropWhile Char.isDigit)
  let d1 := r1.takeWhile Char.isDigit
  if d1 = [] then none else
  match r1.dropWhile Char.isDigit with
  | [] => none
  | w :: label_rev =>
    if isPySpace w ∧ label_rev ≠ [] then
      some (label_rev.reverse, d1.reverse ++ '/' :: d2.reverse)
    else none

/-- Tail `\s+(.+?)$`: the leading whitespace is greedy, the lazy group
then has to cover the whole remainder (nonempty); when nothing follows
the whitespace run, the run backtracks one character into the group. -/
def descTail (l : List Char) : Option (List Char) :=
  match l.span isPySpace with
  | (ws, []) => if 2 ≤ ws.length then some [ws.getLastD ' '] else none
  | (ws, rest) => if ws = [] then none else some rest

/-- Duration token `\d+\.\d+s`, value in microseconds (`float` seconds of
the source, exact at datetime resolution). -/
def durUsec (ip fp : List Char) : Int :=
  (digitsVal ip * 1000000 + fracUsec fp : Nat)

/-- Tail `\s+(.+?)(?:\s+(\d+\.\d+s))?$`: the lazy description group stops
at the unique split point whose suffix is exactly
whitespace-run + duration token + end of line; if no such split exists
the description covers the whole remainder and the duration group is
empty. -/
def descDur (l : List Char) : Option (List Char × Option Int) :=
  match l.span isPySpace with
  | (ws, []) =>
    if 2 ≤ ws.length then some ([ws.getLastD ' '], none) else none
  | (ws, rest) =>
    if ws = [] then none else
    match rest.reverse with
    | 's' :: r1 =>
      let fp := r1.takeWhile Char.isDigit
      let r2 := r1.dropWhile Char.isDigit
      if fp = [] then some (rest, none) else
      match r2 with
      | '.' :: r3 =>
        let ip := r3.takeWhile Char.isDigit
        let r4 := r3.dropWhile Char.isDigit
        if ip = [] then some (rest, none) else
        let wsr := r4.takeWhile isPySpace
        let r5 := r4.dropWhile isPySpace
        if wsr = [] ∨ r5 = [] then some (rest, none) else
        some (r5.reverse, some (durUsec ip.reverse fp.reverse))
      | _ => some (rest, none)
    | _ => some (rest, none)

/-- `BUILDKIT_CACHED_PATTERN`:
`#(\d+)\s+CACHED(?:\s+\[([^\]]+)\s+(\d+/\d+)\]\s+(.+?))?$`.
If anything follows `CACHED` that is not a full extended group, the
final anchor fails and the pattern does not match at all. -/
def cachedAfter (r : List Char) :
    Option (Option (List Char × List Char × List Char)) := do
  let r ← eatWs1 r
  let r ← eatLit "CACHED".data r
  match r with
  | [] => some none
  | _ => do
    let r ← eatWs1 r
    let r ← eatChar '[' r
    let content := r.takeWhile (fun c => !(c = ']'))
    let r2 ← eatChar ']' (r.dropWhile (fun c => !(c = ']')))
    if content = [] then none else
    let (label, km) ← splitBracketKM content
    let desc ← descTail r2
    some (some (label, km, desc))

def matchCached (l : List Char) :
    Option (List Char × Option (List Char × List Char × List Char)) :=
  withHashId cachedAfter l

/-- `BUILDKIT_START_PATTERN`:
`#(\d+)\s+\[([^\]]+)\s+(\d+/\d+)\]\s+(.+?)(?:\s+(\d+\.\d+s))?$`.
The trailing duration group is captured but never read by the source,
so it is dropped here. -/
def startAfter (r : List Char) :
    Option (List Char × List Char × List Char) := do
  let r ← eatWs1 r
  let r ← eatChar '[' r
  let content := r.takeWhile (fun c => !(c = ']'))
  let r2 ← eatChar ']' (r.dropWhile (fun c => !(c = ']')))
  if content = [] then none else
  let (label, km) ← splitBracketKM content
  let (desc, _) ← descDur r2
  some (label, km, desc)

def matchStart (l : List Char) :
    Option (List Char × List Char × List Char × List Char) :=
  withHashId startAfter l

/-- `BUILDKIT_DONE_PATTERN`: `#(\d+)\s+DONE\s+(\d+\.\d+s)$`. -/
def doneAfter (r : List Char) : Option Int := do
  let r ← eatWs1 r
  let r ← eatLit "DONE".data r
  let r ← eatWs1 r
  let (ip, r) ← eatDigits1 r
  let r ← eatChar '.' r
  let (fp, r) ← eatDigits1 r
  let r ← eatChar 's' r
  if r = [] then some (durUsec ip fp) else none

def matchDone (l : List Char) : Option (List Char × Int) :=
  withHashId doneAfter l

/-- `BUILDKIT_PROGRESS_PATTERN`: `#(\d+)\s+(\d+\.\d+s)\s+(.+?)$`.
The handling branch is a `pass`; only whether the pattern matches
matters (it shields such lines from the fallback classifier). -/
def matchProgress (l : List Char) : Bool :=
  (do
    let (_, r) ← matchHashId l
    let r ← eatWs1 r
    let (_, r) ← eatDigits1 r
    let r ← eatChar '.' r
    let (_, r) ← eatDigits1 r
    let r ← eatChar 's' r
    let _ ← descTail r
    pure ()).isSome

/-- `BUILDKIT_SIMPLE_PATTERN`: `#(\d+)\s+\[([^\]]+)\]\s+(.+?)$`. -/
def simpleAfter (r : List Char) : Option (List Char × List Char) := do
  let r ← eatWs1 r
  let r ← eatChar '[' r
  let content := r.takeWhile (fun c => !(c = ']'))
  let r2 ← eatChar ']' (r.dropWhile (fun c => !(c = ']')))
  if content = [] then none else
  let desc ← descTail r2
  some (content, desc)

def matchSimple (l : List Char) :
    Option (List Char × List Char × List Char) :=
  withHashId simpleAfter l

/-- `BUILDKIT_EXTRACTING_PATTERN`:
`#(\d+)\s+extracting\s+(.+?)(?:\s+(\d+\.\d+s))?`.
No end anchor: the lazy group settles on a single character, after which
the optional duration group matches only when whitespace and a duration
token follow immediately; otherwise the duration capture is empty.  The
source reads only the id and the optional duration. -/
def extractingAfter (r : List Char) : Option (Option Int) := do
  let r ← eatWs1 r
  let r ← eatLit "extracting".data r
  match r.span isPySpace with
  | (ws, []) => if 2 ≤ ws.length then some none else none
  | (ws, rest) =>
    if ws = [] then none else
    let odur : Option Int := do
      let rem ← some (rest.drop 1)
      let rem ← eatWs1 rem
      let (ip, rem) ← eatDigits1 rem
      let rem ← eatChar '.' rem
      let (fp, rem) ← eatDigits1 rem
      let _ ← eatChar 's' rem
      pure (durUsec ip fp)
    some odur

def matchExtracting (l : List Char) : Option (List Char × Option Int) :=
  withHashId extractingAfter l

/-- `BUILDKIT_LOADING_PATTERN`: `#(\d+)\s+loading\s+(.+?)` (inert). -/
def matchLoading (l : List Char) : Bool :=
  (do
    let (_, r) ← matchHashId l
    let r ← eatWs1 r
    let r ← eatLit "loading".data r
    match r.span isPySpace with
    | (ws, []) => if 2 ≤ ws.length then some () else none
    | (ws, _) => if ws = [] then none else some ()).isSome

def isHexLower (c : Char) : Bool :=
  c.isDigit || ('a' ≤ c && c ≤ 'f')

/-- `BUILDKIT_TRANSFERRING_PATTERN`:
`#(\d+)\s+(transferring|writing|preparing|sha256:[a-f0-9]+)\s+(.+?)$`
(inert). -/
def matchTransferring (l : List Char) : Bool :=
  (do
    let (_, r) ← matchHashId l
    let r ← eatWs1 r
    let r ←
      match eatLit "transferring".data r with
      | some r2 => some r2
      | none =>
        match eatLit "writing".data r with
        | some r2 => some r2
        | none =>
          match eatLit "preparing".data r with
          | some r2 => some r2
          | none => do
            let r2 ← eatLit "sha256:".data r
            let hx := r2.takeWhile isHexLower
            if hx = [] then none else some (r2.dropWhile isHexLower)
    let _ ← descTail r
    pure ()).isSome

/-- `BUILDKIT_CONTINUATION_PATTERN`: `#(\d+)\s+\.\.\.$` (inert, but it
shields such lines from the fallback classifier). -/
def matchContinuation (l : List Char) : Bool :=
  (do
    let (_, r) ← matchHashId l
    let r ← eatWs1 r
    let r ← eatLit "...".data r
    if r = [] then some () else none).isSome

/-! ## Legacy format matchers -/

/-- `LEGACY_STEP_PATTERN`: `Step\s+(\d+/\d+)\s*:\s*(.+?)$`; returns the
`k/m` capture and the description. -/
def matchLegacyStep (l : List Char) : Option (List Char × List Char) := do
  let r ← eatLit "Step".data l
  let r ← eatWs1 r
  let (ka, r) ← eatDigits1 r
  let r ← eatChar '/' r
  let (kb, r) ← eatDigits1 r
  let r := r.dropWhile isPySpace
  let r ← eatChar ':' r
  match r.span isPySpace with
  | (ws, []) => if 1 ≤ ws.length then some (ka ++ '/' :: kb, [ws.getLastD ' ']) else none
  | (_, rest) => some (ka ++ '/' :: kb, rest)

/-- `LEGACY_USING_CACHE_PATTERN` used with `re.match`: prefix test. -/
def matchUsingCache (l : List Char) : Bool :=
  ("---> Using cache".data).isPrefixOf l

/-! ## Python `int()` and `str(int)` -/

/-- Digit tail with single underscores between digits (Python int grammar). -/
def digitsU : List Char → Option (List Char)
  | [] => some []
  | '_' :: c :: t => if c.isDigit then (digitsU t).map (fun ds => c :: ds) else none
  | ['_'] => none
  | c :: t => if c.isDigit then (digitsU t).map (fun ds => c :: ds) else none

def pyIntDigits : List Char → Option Nat
  | c :: t => if c.isDigit then (digitsU t).map (fun ds => digitsVal (c :: ds)) else none
  | [] => none

/-- Python `int(str)`: surrounding whitespace stripped, optional sign,
nonempty digit run (underscore separators allowed); anything else raises
`ValueError` (`none`).  Non-ASCII decimal digits are not modelled. -/
def pyInt? (l : List Char) : Option Int :=
  match pyStrip l with
  | [] => none
  | c :: rest =>
    if c = '-' then (pyIntDigits rest).map (fun n => -(n : Int))
    else if c = '+' then (pyIntDigits rest).map (fun n => (n : Int))
    else (pyIntDigits (c :: rest)).map (fun n => (n : Int))

/-- Python `str` of a natural number. -/
def natRepr (n : Nat) : List Char :=
  if n = 0 then ['0']
  else ((Nat.digits 10 n).map (fun d => Char.ofNat (48 + d))).reverse

/-- Python `str` of an int. -/
def intRepr (n : Int) : List Char :=
  if n < 0 then '-' :: natRepr (-n).toNat else natRepr n.toNat

/-! ## Insertion-ordered dictionaries (Python `dict`) -/

/-- Python dict assignment `d[k] = v` on an insertion-ordered association
list: an existing key keeps its position, a fresh key is appended. -/
def dictSet {β : Type} (k : String) (v : β) : List (String × β) → List (String × β)
  | [] => [(k, v)]
  | (k2, v2) :: t => if k2 = k then (k, v) :: t else (k2, v2) :: dictSet k v t

/-! ## BuildKit parser (`_parse_buildkit_logs`) -/

def mkId (idd : List Char) : String := String.mk ('#' :: idd)

structure BkState where
  info : List (String × BuildStep)
  startTimes : List String
  buildStart : Option Timestamp
  relCounter : Int
deriving Repr

/-- Pattern dispatch of the BuildKit line loop, in source order; `ts` is
the timestamp extracted from the current line and `st.buildStart` has
already been updated with it. -/
def bkDispatch (now : Timestamp) (st : BkState) (ts : Option Timestamp)
    (l : List Char) : BkState :=
  let bs := st.buildStart
  match matchCached l with
  | some (idd, ext) =>
    let id := mkId idd
    match ext with
    | some (label, km, desc) =>
      let t := (ts <|> bs).getD now
      let v : BuildStep :=
        { step_id := id, description := String.mk desc,
          start_time := some t, end_time := some t, duration := some 0,
          step_type := String.mk label, layer_info := String.mk km,
          is_cached := true }
      { st with info := dictSet id v st.info }
    | none =>
      match st.info.lookup id with
      | some s =>
        let v : BuildStep :=
          { s with is_cached := true, duration := some 0,
                   end_time := s.start_time }
        { st with info := dictSet id v st.info }
      | none => st
  | none =>
  match matchStart l with
  | some (idd, label, km, desc) =>
    let id := mkId idd
    if st.startTimes.contains id then st
    else
      let t := (ts <|> bs).getD now
      let v : BuildStep :=
        { step_id := id, description := String.mk desc,
          start_time := some t, end_time := none, duration := none,
          step_type := String.mk label, layer_info := String.mk km,
          is_cached := false }
      { st with startTimes := id :: st.startTimes,
                info := dictSet id v st.info }
  | none =>
  match matchDone l with
  | some (idd, dur) =>
    let id := mkId idd
    match st.info.lookup id with
    | none => st
    | some s =>
      if s.is_cached then st
      else
        match s.start_time with
        | some stt =>
          let v : BuildStep :=
            { s with duration := some dur, end_time := some (tsAdd stt dur) }
          { st with info := dictSet id v st.info }
        | none =>
          -- unreachable in practice (every record is created with a
          -- start time); modelled faithfully after the source
          let b := st.buildStart.getD now
          let ns := tsAdd b st.relCounter
          let v : BuildStep :=
            { s with duration := some dur, start_time := some ns,
                     end_time := some (tsAdd ns dur) }
          { st with buildStart := some b,
                    relCounter := st.relCounter + dur,
                    info := dictSet id v st.info }
  | none =>
  if matchProgress l then st
  else
  match matchSimple l with
  | some (idd, label, desc) =>
    let id := mkId idd
    match st.info.lookup id with
    | some _ => st
    | none =>
      let t := (ts <|> bs).getD now
      let v : BuildStep :=
        { step_id := id, description := String.mk desc,
          start_time := some t, end_time := none, duration := none,
          step_type := String.mk label, layer_info := "",
          is_cached := false }
      { st with info := dictSet id v st.info }
  | none =>
  match matchExtracting l with
  | some (idd, odur) =>
    let id := mkId idd
    match st.info.lookup id with
    | none => st
    | some s =>
      match odur with
      | none => st
      | some d =>
        let v : BuildStep := { s with duration := some (s.duration.getD 0 + d) }
        { st with info := dictSet id v st.info }
  | none =>
  if matchLoading l then st
  else if matchTransferring l then st
  else if matchContinuation l then st
  else if (pyStrip l).head? = some '#' ∧ l.contains ' ' then
    let parts := pySplitChar ' ' 2 (pyStrip l)
    if 2 ≤ parts.length ∧ (parts.headD []).head? = some '#' then
      match pyInt? ((parts.headD []).drop 1) with
      | some n =>
        let id := String.mk ('#' :: intRepr n)
        match st.info.lookup id with
        | some _ => st
        | none =>
          let t := (ts <|> bs).getD now
          let v : BuildStep :=
            { step_id := id,
              description := String.mk (joinSpace (parts.drop 1)),
              start_time := some t, end_time := none, duration := none,
              step_type := "OTHER", layer_info := "",
              is_cached := false }
          { st with info := dictSet id v st.info }
      | none => st
    else st
  else st

/-- One iteration of the BuildKit line loop: strip, extract timestamp,
update `build_start_time`, strip the timestamp span, then dispatch. -/
def bkStep (now : Timestamp) (st : BkState) (raw : List Char) : BkState :=
  let l0 := pyStrip raw
  if l0 = [] then st else
  let ts := extract_timestamp l0
  let bs := if ts.isSome && st.buildStart.isNone then ts else st.buildStart
  bkDispatch now { st with buildStart := bs } ts (strip_timestamp l0)

def bkInit : BkState :=
  { info := [], startTimes := [], buildStart := none, relCounter := 0 }

def bkFold (now : Timestamp) (lines : List (List Char)) : BkState :=
  lines.foldl (bkStep now) bkInit

/-! ## Relative-time synthesizer (`_calculate_relative_times`) -/

/-- Characters stripped by `step_id.lstrip('#Step ')`. -/
def stripIdChars : List Char := ['#', 'S', 't', 'e', 'p', ' ']

/-- Sort key `int(step_id.lstrip('#Step '))`; `none` models the
`ValueError` that an unparseable id would raise inside `sort`. -/
def sortKeyOf (id : String) : Option Int :=
  pyInt? (id.data.dropWhile (fun c => stripIdChars.contains c))

/-- Python `list.sort(key=...)` is stable; a stable ascending sort is
uniquely determined, here realised by insertion sort. -/
def sortById (vals : List BuildStep) : List BuildStep :=
  vals.insertionSort
    (fun a b => (sortKeyOf a.step_id).getD 0 ≤ (sortKeyOf b.step_id).getD 0)

/-- The synthesizer walk: cached records pin start and end to the cursor
without advancing it; others start at the cursor and advance it by their
duration, defaulting a missing duration to exactly one second. -/
def synthWalk (cursor : Timestamp) : List BuildStep → List BuildStep
  | [] => []
  | s :: rest =>
    if s.is_cached then
      { s with start_time := some cursor, end_time := some cursor }
        :: synthWalk cursor rest
    else
      match s.duration with
      | some d =>
        { s with start_time := some cursor, end_time := some (tsAdd cursor d) }
          :: synthWalk (tsAdd cursor d) rest
      | none =>
        { s with duration := some 1000000, start_time := some cursor,
                 end_time := some (tsAdd cursor 1000000) }
          :: synthWalk (tsAdd cursor 1000000) rest

/-- Source `_calculate_relative_times` as a function: sorts by numeric id
and reassigns the timeline from `now`; `none` models the `ValueError`
raised while sorting if some id fails to parse. -/
def calculate_relative_times (vals : List BuildStep) (now : Timestamp) :
    Option (List BuildStep) :=
  if vals.all (fun s => (sortKeyOf s.step_id).isSome) then
    some (synthWalk now (sortById vals))
  else none

/-- The source mutates the shared step objects while walking a sorted
copy and then returns the dict values in insertion order; with unique
ids this equals mapping every original element to its processed version. -/
def reassemble (vals proc : List BuildStep) : List BuildStep :=
  vals.map (fun s => (proc.find? (fun t => t.step_id == s.step_id)).getD s)

def parse_buildkit_logs (lines : List (List Char)) (now : Timestamp) :
    Option (List BuildStep) :=
  let st := bkFold now lines
  let vals := st.info.map Prod.snd
  match st.buildStart with
  | none => (calculate_relative_times vals now).map (reassemble vals)
  | some _ => some vals

/-! ## Legacy parser (`_parse_legacy_logs`) -/

structure LgState where
  steps : List BuildStep
  current : Option BuildStep
  counter : Nat
  buildStart : Option Timestamp
deriving Repr

/-- One iteration of the legacy line loop (with index for lookahead);
`none` propagates the `TypeError` of a mixed aware/naive subtraction. -/
def lgStep (lines : List (List Char)) (now : Timestamp) (st : LgState)
    (p : Nat × List Char) : Option LgState :=
  let i := p.1
  let l0 := pyStrip p.2
  if l0 = [] then some st else
  let ts := extract_timestamp l0
  let bs := if ts.isSome && st.buildStart.isNone then ts else st.buildStart
  let st := { st with buildStart := bs }
  let l := strip_timestamp l0
  match matchLegacyStep l with
  | some (km, desc) =>
    let steps2 :=
      match st.current with
      | some c => st.steps ++ [c]
      | none => st.steps
    let n := st.counter + 1
    let v : BuildStep :=
      { step_id := String.mk ("Step ".data ++ natRepr n),
        description := String.mk desc,
        start_time := some ((ts <|> bs).getD now),
        end_time := none, duration := none,
        step_type := if hasInfix "RUN".data desc then "RUN" else "OTHER",
        layer_info := String.mk km, is_cached := false }
    some { st with steps := steps2, counter := n, current := some v }
  | none =>
    match st.current with
    | none => some st
    | some c =>
      if matchUsingCache l then
        let v : BuildStep :=
          { c with is_cached := true, duration := some 0,
                   end_time := c.start_time }
        some { st with current := some v }
      else if i < lines.length - 1 then
        -- lookahead peeks at the next raw line; note that the source
        -- extracts the lookahead timestamp from the unstripped raw line
        let nraw := (lines.get? (i + 1)).getD []
        let nl := strip_timestamp (pyStrip nraw)
        if (matchLegacyStep nl).isSome then
          let nts := extract_timestamp nraw
          match c.start_time, nts with
          | some stt, some nt =>
            match tsSub nt stt with
            | some d =>
              let v : BuildStep :=
                { c with end_time := some nt, duration := some d }
              some { st with current := some v }
            | none => none
          | _, _ => some st
        else some st
      else some st

def parse_legacy_logs (lines : List (List Char)) (now : Timestamp) :
    Option (List BuildStep) := do
  let st ← lines.enum.foldlM (lgStep lines now)
    { steps := [], current := none, counter := 0, buildStart := none }
  some (match st.current with
        | some c => st.steps ++ [c]
        | none => st.steps)

/-! ## Format detection and the top-level entry point -/

/-- The per-line test of `_detect_format`: timestamp-stripped and
whitespace-stripped line starts with a hash and mentions DONE, CACHED or
an opening bracket. -/
def bkSignal (l : List Char) : Bool :=
  let c := pyStrip (strip_timestamp l)
  c.head? = some '#' &&
    (hasInfix "DONE".data c || hasInfix "CACHED".data c || c.contains '[')

/-- Source `_detect_format`: scans the first 20 raw lines. -/
def detect_format (lines : List (List Char)) : Bool :=
  (lines.take 20).any bkSignal

/-- Line list of a document: `log_content.strip().split('\n')`. -/
def docLines (doc : String) : List (List Char) :=
  splitOnNl (pyStrip doc.data)

/-- Source `parse_logs` on a fresh parser instance; `now` is the value
returned by `datetime.now()` during the run. -/
def parse_logs (doc : String) (now : Timestamp) : Option (List BuildStep) :=
  let lines := docLines doc
  if detect_format lines then parse_buildkit_logs lines now
  else parse_legacy_logs lines now

/-! ## Parallelism detector (`detect_parallelism`, `_steps_overlap`) -/

/-- Source `_steps_overlap`: false unless all four endpoints are present,
otherwise `not (end1 <= start2 or end2 <= start1)`.  Comparisons are on
the microsecond instant (see the module comment on totalisation). -/
def steps_overlap (s1 s2 : BuildStep) : Bool :=
  match s1.start_time, s1.end_time, s2.start_time, s2.end_time with
  | some a, some b, some c, some d =>
    !(decide (b.usec ≤ c.usec) || decide (d.usec ≤ a.usec))
  | _, _, _, _ => false

def startKey (s : BuildStep) : Int :=
  (s.start_time.map Timestamp.usec).getD 0

/-- Steps with a start time, stably sorted by it (`sorted(..., key=...)`). -/
def sortedValid (steps : List BuildStep) : List BuildStep :=
  (steps.filter (fun s => s.start_time.isSome)).insertionSort
    (fun a b => startKey a ≤ startKey b)

/-- Inner loop of `detect_parallelism`: ids of the steps at other
positions that overlap the step `s` sitting at position `i`. -/
def overlapIds (ss : List BuildStep) (i : Nat) (s : BuildStep) : List String :=
  ss.enum.filterMap
    (fun p => if ¬(p.1 = i) ∧ steps_overlap s p.2 = true
              then some p.2.step_id else none)

/-- Loop body of `detect_parallelism`: record a dict entry only when the
overlap list is nonempty. -/
def dpStep (ss : List BuildStep) (m : List (String × List String))
    (p : Nat × BuildStep) : List (String × List String) :=
  let pw := overlapIds ss p.1 p.2
  if pw = [] then m else dictSet p.2.step_id pw m

/-- Source `detect_parallelism`: per step with a nonempty overlap list,
a dict entry from its id to that list. -/
def detect_parallelism (steps : List BuildStep) : List (String × List String) :=
  let ss := sortedValid steps
  ss.enum.foldl (dpStep ss) []

/-! ## Bottleneck identifier (`identify_bottlenecks`) -/

/-- Python `int()` on a float/rational: truncation toward zero. -/
def pyTrunc (q : ℚ) : Int := if q < 0 then -⌊-q⌋ else ⌊q⌋

/-- Python list indexing: negative indices wrap once from the end;
`none` models `IndexError`. -/
def pyIndex {α : Type} (l : List α) (i : Int) : Option α :=
  if 0 ≤ i then l.get? i.toNat
  else if 0 ≤ i + l.length then l.get? (i + l.length).toNat else none

/-- Rank expression `int(len(durations) * threshold_percentile / 100)`. -/
def rankIndex (n : Nat) (p : ℚ) : Int := pyTrunc ((n : ℚ) * p / 100)

/-- Source `identify_bottlenecks` (durations in microseconds, percentile
as an exact rational); `none` models the `IndexError` raised when the
computed rank is out of range. -/
def identify_bottlenecks (steps : List BuildStep) (p : ℚ) :
    Option (List BuildStep) :=
  let nc := steps.filter (fun s => !s.is_cached && s.duration.isSome)
  if nc = [] then some [] else
  let durs := nc.filterMap (fun s => s.duration)
  let sd := durs.insertionSort (· ≤ ·)
  match pyIndex sd (rankIndex durs.length p) with
  | some threshold => some (nc.filter (fun s => threshold ≤ s.duration.getD 0))
  | none => none

/-- Claim-side restatement of the bottleneck contract, following the
specification text: restrict to non-cached steps with known duration
(empty if none), sort durations ascending, take the value at rank
floor(count * percentile / 100) clamped to a valid index as threshold,
return the qualifying steps with duration at or above it. -/
def bottlenecksSpec (steps : List BuildStep) (p : ℚ) : List BuildStep :=
  let nc := steps.filter (fun s => !s.is_cached && s.duration.isSome)
  if nc = [] then [] else
  let durs := nc.filterMap (fun s => s.duration)
  let sd := durs.insertionSort (· ≤ ·)
  let idx := min (max ⌊(durs.length : ℚ) * p / 100⌋ 0).toNat (durs.length - 1)
  let threshold := (sd.get? idx).getD 0
  nc.filter (fun s => threshold ≤ s.duration.getD 0)

/-- The non-cached, known-duration restriction. -/
def ncOf (steps : List BuildStep) : List BuildStep :=
  steps.filter (fun s => !s.is_cached && s.duration.isSome)

def dursOf (steps : List BuildStep) : List Int :=
  (ncOf steps).filterMap (fun s => s.duration)

def sdOf (steps : List BuildStep) : List Int :=
  (dursOf steps).insertionSort (· ≤ ·)

/-- Entries produced by one enumerated step. -/
def dpEmit (ss : List BuildStep) (p : Nat × BuildStep) :
    Option (String × List String) :=
  let pw := overlapIds ss p.1 p.2
  if pw = [] then none else some (p.2.step_id, pw)

/-- Shape components of the semantically invalid timestamp used as the
concrete counterexample input (month 13, day 45, hour 99). -/
def c2Parts : DateParts :=
  { year := 2023, month := 13, day := 45, hour := 99, minute := 99,
    second := 99, frac := [], zone := ZoneSpec.noZone }

/-- The format-detection contract as worded by the specification: filter
out empty lines first, then examine at most the first 20 remaining
lines. -/
def detectFormatSpec (lines : List (List Char)) : Bool :=
  ((lines.filter (fun l => !l.isEmpty)).take 20).any bkSignal

/-- A document whose first 20 raw lines carry no concurrent-format
signal, although its first 20 nonempty lines do: one text line, twenty
blank lines, then a BuildKit line. -/
def c6doc : String :=
  "hello\n\n\n\n\n\n\n\n\n\n\n\n\n\n\n\n\n\n\n\n#1 [internal] x"

def c6lines : List (List Char) :=
  "hello".data :: (List.replicate 19 [] ++ ["#1 [internal] x".data])

/-! ## Concrete parse runs (code-bug witnesses and counterexamples) -/

/-- The value returned by `datetime.now()` during a run; its actual
value never matters for the claims below. -/
def now0 : Timestamp := { usec := 0, aware := false }

/-- Legacy document with timestamps: a cached step is followed by a
non-step line, whose lookahead at the next step header re-closes the
already-cached current step with a nonzero duration. -/
def c4doc : String :=
  "2023-01-01T10:00:00 Step 1/2 : FROM python\n2023-01-01T10:00:00 ---> Using cache\n2023-01-01T10:00:00 ---> abc\n2023-01-01T10:00:05 Step 2/2 : RUN ls"

/-- Legacy document that mixes a step without a timestamp (whose start
time becomes the naive `datetime.now()`) with a later step header whose
timestamp carries a zone suffix (timezone-aware). -/
def c9doc : String :=
  "Step 1/2 : FROM python\nx\n2023-01-01T10:00:05Z Step 2/2 : RUN ls"

/-- Legacy document with no absolute timestamp on any line. -/
def c3doc : String := "Step 1/2 : FROM python\nStep 2/2 : RUN ls"

/-! ## Synthesizer lemmas -/

/-- Monotone-timeline relation between adjacent synthesized steps. -/
def endLeStart (a b : BuildStep) : Prop :=
  ∃ ta tb, a.end_time = some ta ∧ b.start_time = some tb ∧ ta.usec ≤ tb.usec

def InvInfo (info : List (String × BuildStep)) : Prop :=
  (info.map Prod.fst).Nodup ∧
  ∀ q ∈ info, q.2.step_id = q.1 ∧ q.2.start_time.isSome = true ∧
    (q.2.is_cached = true → q.2.duration.isSome = true) ∧
    (sortKeyOf q.1).isSome = true

/-- Dict values of the BuildKit fold over a line list. -/
def bkVals (now : Timestamp) (lines : List (List Char)) : List BuildStep :=
  ((bkFold now lines).info).map Prod.snd

/-- The synthesized timeline the relative-time synthesizer produces for
those values. -/
def bkProc (now : Timestamp) (lines : List (List Char)) : List BuildStep :=
  synthWalk now (sortById (bkVals now lines))

/-- Concurrent-format document without timestamps used to instantiate
the amended claim C3. -/
def c3wdoc : String := "#1 [a 1/1] RUN x\n#1 DONE 2.0s\n#2 [internal] load x"

/-! ## Concrete instances for the analysis claims -/

/-- A single non-cached step with a known duration of 5 seconds. -/
def wStep : BuildStep :=
  { step_id := "#1", description := "", start_time := none, end_time := none,
    duration := some 5000000, step_type := "", layer_info := "",
    is_cached := false }

/-- Interval step constructor for the detector instances. -/
def mkOv (id : String) (a b : Int) : BuildStep :=
  { step_id := id, description := "",
    start_time := some { usec := a, aware := false },
    end_time := some { usec := b, aware := false }, duration := none,
    step_type := "", layer_info := "", is_cached := false }

def ovA : BuildStep := mkOv "A" 0 2

def ovB : BuildStep := mkOv "B" 1 3

/-- Four steps with a duplicated id X. -/
def c7steps : List BuildStep :=
  [mkOv "X" 0 10, mkOv "A" 0 5, mkOv "X" 20 30, mkOv "B" 20 30]

/-! ## Lemmas and claim theorems -/

/-! ## Lemmas for the bottleneck identifier -/

theorem rank_q_nonneg (n : Nat) (p : ℚ) (h0 : 0 ≤ p) : (0:ℚ) ≤ (n : ℚ) * p / 100 := by
  positivity

theorem rankIndex_eq_floor (n : Nat) (p : ℚ) (h0 : 0 ≤ p) :
    rankIndex n p = ⌊(n : ℚ) * p / 100⌋ := by
  unfold rankIndex pyTrunc
  rw [if_neg (not_lt.mpr (rank_q_nonneg n p h0))]

theorem rankIndex_nonneg (n : Nat) (p : ℚ) (h0 : 0 ≤ p) : 0 ≤ rankIndex n p := by
  rw [rankIndex_eq_floor n p h0]
  exact Int.floor_nonneg.mpr (rank_q_nonneg n p h0)

theorem rankIndex_lt (n : Nat) (p : ℚ) (h0 : 0 ≤ p) (h1 : p < 100) (hn : 1 ≤ n) :
    rankIndex n p < n := by
  rw [rankIndex_eq_floor n p h0, Int.floor_lt]
  push_cast
  rw [div_lt_iff₀ (by norm_num : (0:ℚ) < 100)]
  exact mul_lt_mul_of_pos_left h1 (by exact_mod_cast hn)

theorem rankIndex_mono (n : Nat) (p1 p2 : ℚ) (h0 : 0 ≤ p1) (h : p1 ≤ p2) :
    rankIndex n p1 ≤ rankIndex n p2 := by
  rw [rankIndex_eq_floor n p1 h0, rankIndex_eq_floor n p2 (le_trans h0 h)]
  apply Int.floor_le_floor
  gcongr

theorem identify_bottlenecks_eq (steps : List BuildStep) (p : ℚ) :
    identify_bottlenecks steps p =
      (if ncOf steps = [] then some [] else
        match pyIndex (sdOf steps) (rankIndex (dursOf steps).length p) with
        | some threshold =>
          some ((ncOf steps).filter (fun s => threshold ≤ s.duration.getD 0))
        | none => none) := rfl

theorem bottlenecksSpec_eq (steps : List BuildStep) (p : ℚ) :
    bottlenecksSpec steps p =
      (if ncOf steps = [] then [] else
        (ncOf steps).filter (fun s =>
          ((sdOf steps).get?
            (min (max ⌊((dursOf steps).length : ℚ) * p / 100⌋ 0).toNat
              ((dursOf steps).length - 1))).getD 0 ≤ s.duration.getD 0)) := rfl

theorem dursOf_len_pos (steps : List BuildStep) (h : ncOf steps ≠ []) :
    1 ≤ (dursOf steps).length := by
  unfold dursOf
  rcases hnc : ncOf steps with _ | ⟨a, t⟩
  · exact absurd hnc h
  · have ha : a ∈ ncOf steps := by rw [hnc]; exact List.mem_cons_self a t
    have hsome : a.duration.isSome := by
      have h2 := (List.mem_filter.mp ha).2
      simp only [Bool.and_eq_true] at h2
      exact h2.2
    rcases hd : a.duration with _ | d
    · rw [hd] at hsome; simp at hsome
    · simp [List.filterMap_cons, hd]

theorem sdOf_length (steps : List BuildStep) :
    (sdOf steps).length = (dursOf steps).length :=
  List.length_insertionSort _ _

theorem rank_toNat_lt (steps : List BuildStep) (p : ℚ)
    (h0 : 0 ≤ p) (h1 : p < 100) (h : ncOf steps ≠ []) :
    (rankIndex (dursOf steps).length p).toNat < (sdOf steps).length := by
  have hlt := rankIndex_lt (dursOf steps).length p h0 h1 (dursOf_len_pos steps h)
  have hnn := rankIndex_nonneg (dursOf steps).length p h0
  rw [sdOf_length]
  omega

/-- Shared evaluation of `identify_bottlenecks` for in-range percentiles. -/
theorem identify_bottlenecks_some (steps : List BuildStep) (p : ℚ)
    (h0 : 0 ≤ p) (h1 : p < 100) (h : ncOf steps ≠ []) :
    identify_bottlenecks steps p =
      some ((ncOf steps).filter (fun s =>
        (sdOf steps).get ⟨(rankIndex (dursOf steps).length p).toNat,
          rank_toNat_lt steps p h0 h1 h⟩ ≤ s.duration.getD 0)) := by
  rw [identify_bottlenecks_eq, if_neg h]
  unfold pyIndex
  rw [if_pos (rankIndex_nonneg (dursOf steps).length p h0)]
  rw [List.get?_eq_get (rank_toNat_lt steps p h0 h1 h)]

theorem spec_index_eq (steps : List BuildStep) (p : ℚ)
    (h0 : 0 ≤ p) (h1 : p < 100) (h : ncOf steps ≠ []) :
    min (max ⌊((dursOf steps).length : ℚ) * p / 100⌋ 0).toNat
      ((dursOf steps).length - 1) = (rankIndex (dursOf steps).length p).toNat := by
  rw [← rankIndex_eq_floor _ _ h0]
  rw [max_eq_left (rankIndex_nonneg _ _ h0)]
  have := rank_toNat_lt steps p h0 h1 h
  rw [sdOf_length] at this
  omega

/-- Claim C1 (amended): for every list of steps and every percentile
threshold with 0 <= p < 100, `identify_bottlenecks` restricts to
non-cached steps with known duration (empty if none remain), sorts the
durations ascending, takes the value at rank floor(count * p / 100) as
threshold (the rank is always in range for p < 100, so the clamping
described by the specification never engages), and returns exactly the
qualifying steps with duration at or above the threshold.  At p = 100
the rank equals the list length and the lookup raises IndexError
instead of clamping (see the counterexample). -/
theorem C1_identify_bottlenecks_spec (steps : List BuildStep) (p : ℚ)
    (h0 : 0 ≤ p) (h1 : p < 100) :
    identify_bottlenecks steps p = some (bottlenecksSpec steps p) := by
  by_cases h : ncOf steps = []
  · rw [identify_bottlenecks_eq, bottlenecksSpec_eq, if_pos h, if_pos h]
  · rw [identify_bottlenecks_some steps p h0 h1 h, bottlenecksSpec_eq, if_neg h,
      spec_index_eq steps p h0 h1 h,
      List.get?_eq_get (rank_toNat_lt steps p h0 h1 h)]
    rfl

/-- Claim C8 (amended): for a fixed list of steps and percentiles
0 <= p1 <= p2 < 100, the bottleneck set returned at p2 is no larger
than the one returned at p1.  At p2 = 100 the call raises IndexError
and returns nothing at all (see the counterexample). -/
theorem C8_percentile_monotonic (steps : List BuildStep) (p1 p2 : ℚ)
    (h0 : 0 ≤ p1) (h12 : p1 ≤ p2) (h2 : p2 < 100) (l1 l2 : List BuildStep)
    (e1 : identify_bottlenecks steps p1 = some l1)
    (e2 : identify_bottlenecks steps p2 = some l2) :
    l2.length ≤ l1.length := by
  by_cases h : ncOf steps = []
  · rw [identify_bottlenecks_eq, if_pos h] at e1 e2
    cases e1; cases e2; simp
  · have h02 : 0 ≤ p2 := le_trans h0 h12
    have h11 : p1 < 100 := lt_of_le_of_lt h12 h2
    rw [identify_bottlenecks_some steps p1 h0 h11 h] at e1
    rw [identify_bottlenecks_some steps p2 h02 h2 h] at e2
    have hl1 := (Option.some.injEq _ _).mp e1
    have hl2 := (Option.some.injEq _ _).mp e2
    subst hl1; subst hl2
    have hs : List.Sorted (· ≤ ·) (sdOf steps) := List.sorted_insertionSort _ _
    have hmono := rankIndex_mono (dursOf steps).length p1 p2 h0 h12
    have hnn := rankIndex_nonneg (dursOf steps).length p1 h0
    have hth : (sdOf steps).get ⟨(rankIndex (dursOf steps).length p1).toNat,
          rank_toNat_lt steps p1 h0 h11 h⟩ ≤
        (sdOf steps).get ⟨(rankIndex (dursOf steps).length p2).toNat,
          rank_toNat_lt steps p2 h02 h2 h⟩ := by
      apply hs.rel_get_of_le
      simp only [Fin.mk_le_mk]
      omega
    apply List.Sublist.length_le
    apply List.monotone_filter_right
    intro a ha
    simp only [decide_eq_true_eq] at ha ⊢
    exact le_trans hth ha

/-! ## Lemmas for the parallelism detector -/

theorem steps_overlap_symm (s t : BuildStep) :
    steps_overlap s t = steps_overlap t s := by
  unfold steps_overlap
  rcases s.start_time with _ | a <;> rcases s.end_time with _ | b <;>
    rcases t.start_time with _ | c <;> rcases t.end_time with _ | d <;>
    simp [Bool.or_comm]

theorem mem_dictSet {β : Type} (k : String) (v : β) (l : List (String × β))
    (q : String × β) (h : q ∈ dictSet k v l) : q = (k, v) ∨ q ∈ l := by
  induction l with
  | nil => simpa [dictSet] using h
  | cons a t ih =>
    rw [show dictSet k v (a :: t) =
        (if a.1 = k then (k, v) :: t else a :: dictSet k v t) from rfl] at h
    by_cases hk : a.1 = k
    · rw [if_pos hk] at h
      rcases List.mem_cons.mp h with h1 | h1
      · exact Or.inl h1
      · exact Or.inr (List.mem_cons_of_mem a h1)
    · rw [if_neg hk] at h
      rcases List.mem_cons.mp h with h1 | h1
      · exact Or.inr (h1 ▸ List.mem_cons_self a t)
      · rcases ih h1 with h2 | h2
        · exact Or.inl h2
        · exact Or.inr (List.mem_cons_of_mem a h2)

theorem dictSet_eq_append {β : Type} (k : String) (v : β) (l : List (String × β))
    (h : k ∉ l.map Prod.fst) : dictSet k v l = l ++ [(k, v)] := by
  induction l with
  | nil => rfl
  | cons a t ih =>
    simp only [List.map_cons, List.mem_cons] at h
    push_neg at h
    rw [show dictSet k v (a :: t) =
        (if a.1 = k then (k, v) :: t else a :: dictSet k v t) from rfl]
    rw [if_neg (fun he => h.1 he.symm), ih h.2]
    rfl

theorem dp_fold_inv (ss : List BuildStep) (l : List (Nat × BuildStep))
    (acc : List (String × List String)) (hacc : ∀ q ∈ acc, q.2 ≠ []) :
    ∀ q ∈ l.foldl (dpStep ss) acc, q.2 ≠ [] := by
  induction l generalizing acc with
  | nil => exact hacc
  | cons a t ih =>
    intro q hq
    rw [List.foldl_cons] at hq
    refine ih (dpStep ss acc a) ?_ q hq
    intro r hr
    unfold dpStep at hr
    by_cases hpw : overlapIds ss a.1 a.2 = []
    · rw [if_pos hpw] at hr
      exact hacc r hr
    · rw [if_neg hpw] at hr
      rcases mem_dictSet _ _ _ _ hr with h1 | h1
      · rw [h1]; exact hpw
      · exact hacc r h1

theorem dp_fold_eq (ss : List BuildStep) (l : List (Nat × BuildStep))
    (acc : List (String × List String))
    (hnodup : (l.map (fun p => p.2.step_id)).Nodup)
    (hdisj : ∀ p ∈ l, p.2.step_id ∉ acc.map Prod.fst) :
    l.foldl (dpStep ss) acc = acc ++ l.filterMap (dpEmit ss) := by
  induction l generalizing acc with
  | nil => simp
  | cons a t ih =>
    rw [List.foldl_cons, List.filterMap_cons]
    simp only [List.map_cons, List.nodup_cons] at hnodup
    by_cases hpw : overlapIds ss a.1 a.2 = []
    · rw [show dpStep ss acc a = acc from by unfold dpStep; rw [if_pos hpw],
        show dpEmit ss a = none from by unfold dpEmit; rw [if_pos hpw]]
      exact ih acc hnodup.2 (fun p hp => hdisj p (List.mem_cons_of_mem a hp))
    · rw [show dpStep ss acc a = dictSet a.2.step_id (overlapIds ss a.1 a.2) acc from
          by unfold dpStep; rw [if_neg hpw],
        show dpEmit ss a = some (a.2.step_id, overlapIds ss a.1 a.2) from
          by unfold dpEmit; rw [if_neg hpw]]
      rw [dictSet_eq_append _ _ _ (hdisj a (List.mem_cons_self a t))]
      rw [ih (acc ++ [(a.2.step_id, overlapIds ss a.1 a.2)]) hnodup.2 ?_]
      · simp
      · intro p hp
        simp only [List.map_append, List.mem_append, List.map_cons, List.map_nil,
          List.mem_cons, List.not_mem_nil]
        push_neg
        refine ⟨hdisj p (List.mem_cons_of_mem a hp), ?_, fun hfalse => hfalse⟩
        intro he
        exact hnodup.1 (he ▸ List.mem_map_of_mem (fun p => p.2.step_id) hp)

theorem lookup_eq_some_iff_mem {β : Type} (L : List (String × β))
    (hN : (L.map Prod.fst).Nodup) (k : String) (v : β) :
    L.lookup k = some v ↔ (k, v) ∈ L := by
  induction L with
  | nil => simp
  | cons a t ih =>
    simp only [List.map_cons, List.nodup_cons] at hN
    rcases a with ⟨k2, v2⟩
    rw [List.lookup_cons]
    by_cases hk : k = k2
    · subst hk
      simp only [beq_self_eq_true]
      constructor
      · intro h
        cases h
        exact List.mem_cons_self _ _
      · intro h
        rcases List.mem_cons.mp h with h1 | h1
        · cases h1; rfl
        · exact absurd (List.mem_map_of_mem Prod.fst h1) hN.1
    · have : (k == k2) = false := beq_eq_false_iff_ne.mpr hk
      rw [this]
      rw [ih hN.2]
      constructor
      · exact fun h => List.mem_cons_of_mem _ h
      · intro h
        rcases List.mem_cons.mp h with h1 | h1
        · exact absurd (congrArg Prod.fst h1) hk
        · exact h1

theorem mem_overlapIds (ss : List BuildStep) (i : Nat) (s : BuildStep) (idB : String) :
    idB ∈ overlapIds ss i s ↔
      ∃ j s2, ss.get? j = some s2 ∧ ¬(j = i) ∧ steps_overlap s s2 = true ∧
        s2.step_id = idB := by
  unfold overlapIds
  rw [List.mem_filterMap]
  constructor
  · rintro ⟨⟨j, s2⟩, hmem, hemit⟩
    by_cases hc : ¬(j = i) ∧ steps_overlap s s2 = true
    · rw [if_pos hc] at hemit
      cases hemit
      exact ⟨j, s2, List.mem_enum_iff_get?.mp hmem, hc.1, hc.2, rfl⟩
    · rw [if_neg hc] at hemit
      cases hemit
  · rintro ⟨j, s2, hget, hne, hov, hid⟩
    refine ⟨(j, s2), List.mem_enum_iff_get?.mpr hget, ?_⟩
    rw [if_pos ⟨hne, hov⟩, hid]

theorem sortedValid_ids_nodup (steps : List BuildStep)
    (hN : (steps.map BuildStep.step_id).Nodup) :
    ((sortedValid steps).map BuildStep.step_id).Nodup := by
  have hperm : (sortedValid steps).Perm
      (steps.filter (fun s => s.start_time.isSome)) :=
    List.perm_insertionSort _ _
  have h1 : ((steps.filter (fun s => s.start_time.isSome)).map
      BuildStep.step_id).Nodup :=
    ((List.filter_sublist steps).map BuildStep.step_id).nodup hN
  exact ((hperm.map BuildStep.step_id).nodup_iff).mpr h1

theorem dp_keys_sub (ss : List BuildStep) (l : List (Nat × BuildStep)) :
    ∀ k ∈ (l.filterMap (dpEmit ss)).map Prod.fst, k ∈ l.map (fun p => p.2.step_id) := by
  induction l with
  | nil => simp
  | cons a t ih =>
    intro k hk
    rw [List.filterMap_cons] at hk
    rcases he : dpEmit ss a with _ | q
    · rw [he] at hk
      exact List.mem_cons_of_mem _ (ih k hk)
    · rw [he] at hk
      simp only [List.map_cons, List.mem_cons] at hk ⊢
      rcases hk with h1 | h1
      · left
        unfold dpEmit at he
        by_cases hpw : overlapIds ss a.1 a.2 = []
        · rw [if_pos hpw] at he; cases he
        · rw [if_neg hpw] at he
          cases he
          exact h1
      · exact Or.inr (ih k h1)

theorem dp_keys_nodup (ss : List BuildStep) (l : List (Nat × BuildStep))
    (hN : (l.map (fun p => p.2.step_id)).Nodup) :
    ((l.filterMap (dpEmit ss)).map Prod.fst).Nodup := by
  induction l with
  | nil => simp
  | cons a t ih =>
    rw [List.filterMap_cons]
    simp only [List.map_cons, List.nodup_cons] at hN
    rcases he : dpEmit ss a with _ | q
    · exact ih hN.2
    · simp only [List.map_cons, List.nodup_cons]
      refine ⟨?_, ih hN.2⟩
      intro hmem
      have hq : q.1 = a.2.step_id := by
        unfold dpEmit at he
        by_cases hpw : overlapIds ss a.1 a.2 = []
        · rw [if_pos hpw] at he; cases he
        · rw [if_neg hpw] at he; cases he; rfl
      exact hN.1 (hq ▸ dp_keys_sub ss t q.1 hmem)

/-- Characterization of the detector result for pairwise-distinct ids. -/
theorem detect_parallelism_eq (steps : List BuildStep)
    (hN : (steps.map BuildStep.step_id).Nodup) :
    detect_parallelism steps =
      (sortedValid steps).enum.filterMap (dpEmit (sortedValid steps)) := by
  unfold detect_parallelism
  have he : ((sortedValid steps).enum.map (fun p => p.2.step_id)).Nodup := by
    have : (sortedValid steps).enum.map (fun p => p.2.step_id) =
        ((sortedValid steps).enum.map Prod.snd).map BuildStep.step_id := by
      rw [List.map_map]; rfl
    rw [this, List.enum_map_snd]
    exact sortedValid_ids_nodup steps hN
  exact dp_fold_eq _ _ [] he (by simp)

theorem sorted_enum_ids_nodup (steps : List BuildStep)
    (hN : (steps.map BuildStep.step_id).Nodup) :
    ((sortedValid steps).enum.map (fun p => p.2.step_id)).Nodup := by
  have : (sortedValid steps).enum.map (fun p => p.2.step_id) =
      ((sortedValid steps).enum.map Prod.snd).map BuildStep.step_id := by
    rw [List.map_map]; rfl
  rw [this, List.enum_map_snd]
  exact sortedValid_ids_nodup steps hN

theorem dpEmit_some (ss : List BuildStep) (p : Nat × BuildStep)
    (q : String × List String) (h : dpEmit ss p = some q) :
    q.1 = p.2.step_id ∧ q.2 = overlapIds ss p.1 p.2 ∧ overlapIds ss p.1 p.2 ≠ [] := by
  unfold dpEmit at h
  by_cases hpw : overlapIds ss p.1 p.2 = []
  · rw [if_pos hpw] at h; cases h
  · rw [if_neg hpw] at h; cases h; exact ⟨rfl, rfl, hpw⟩

theorem nodup_ids_get_inj (ss : List BuildStep)
    (h : (ss.map BuildStep.step_id).Nodup) (i j : Nat) (s s2 : BuildStep)
    (hi : ss.get? i = some s) (hj : ss.get? j = some s2)
    (hid : s.step_id = s2.step_id) : i = j := by
  obtain ⟨hilt, hgi⟩ := List.get?_eq_some.mp hi
  obtain ⟨hjlt, hgj⟩ := List.get?_eq_some.mp hj
  have hmi : i < (ss.map BuildStep.step_id).length := by simpa using hilt
  have hmj : j < (ss.map BuildStep.step_id).length := by simpa using hjlt
  have hget : (ss.map BuildStep.step_id).get ⟨i, hmi⟩ =
      (ss.map BuildStep.step_id).get ⟨j, hmj⟩ := by
    rw [List.get_map, List.get_map]
    simp only []
    rw [show ss.get ⟨i, hilt⟩ = s from hgi, show ss.get ⟨j, hjlt⟩ = s2 from hgj]
    exact hid
  have := (h.get_inj_iff).mp hget
  exact congrArg Fin.val this

/-- Claim C5: for every pair of steps that both have start and end
times, the overlap test applied by the parallelism detector to every
ordered pair of distinct positions holds iff end1 > start2 and
end2 > start1; intervals that merely touch (end1 = start2) do not
overlap; and every entry of the returned mapping has a nonempty overlap
list (steps with no overlaps are omitted). -/
theorem C5_overlap_criterion :
    (∀ s1 s2 : BuildStep, ∀ a b c d : Timestamp,
      s1.start_time = some a → s1.end_time = some b →
      s2.start_time = some c → s2.end_time = some d →
      (steps_overlap s1 s2 = true ↔ (c.usec < b.usec ∧ a.usec < d.usec))) ∧
    (∀ s1 s2 : BuildStep, ∀ a b c d : Timestamp,
      s1.start_time = some a → s1.end_time = some b →
      s2.start_time = some c → s2.end_time = some d → b = c →
      steps_overlap s1 s2 = false) ∧
    (∀ steps : List BuildStep, ∀ q ∈ detect_parallelism steps, q.2 ≠ []) := by
  refine ⟨?_, ?_, ?_⟩
  · intro s1 s2 a b c d h1 h2 h3 h4
    unfold steps_overlap
    rw [h1, h2, h3, h4]
    simp only [Bool.not_eq_true', Bool.or_eq_false_iff, decide_eq_false_iff_not, not_le]
  · intro s1 s2 a b c d h1 h2 h3 h4 hbc
    unfold steps_overlap
    rw [h1, h2, h3, h4, hbc]
    simp
  · intro steps q hq
    exact dp_fold_inv _ _ [] (by simp) q hq

/-- Claim C7 (amended): for every list of steps whose ids are pairwise
distinct, the mapping returned by `detect_parallelism` is symmetric:
if the entry of id A contains id B, then the entry of id B exists and
contains id A.  With duplicate ids a later entry can overwrite an
earlier one and symmetry fails (see the counterexample). -/
theorem C7_overlap_symmetry (steps : List BuildStep)
    (hN : (steps.map BuildStep.step_id).Nodup) (idA idB : String)
    (lA : List String)
    (hA : (detect_parallelism steps).lookup idA = some lA) (hB : idB ∈ lA) :
    ∃ lB, (detect_parallelism steps).lookup idB = some lB ∧ idA ∈ lB := by
  have hdp := detect_parallelism_eq steps hN
  have hkeys := dp_keys_nodup (sortedValid steps) (sortedValid steps).enum
    (sorted_enum_ids_nodup steps hN)
  rw [hdp] at hA
  rw [hdp]
  obtain ⟨⟨i, sA⟩, hmemA, hemitA⟩ :=
    List.mem_filterMap.mp ((lookup_eq_some_iff_mem _ hkeys idA lA).mp hA)
  obtain ⟨hkA, hvA, _⟩ := dpEmit_some _ _ _ hemitA
  simp only [] at hkA hvA
  have hgetA : (sortedValid steps).get? i = some sA := List.mem_enum_iff_get?.mp hmemA
  rw [hvA] at hB
  obtain ⟨j, sB, hgetB, hji, hov, hidB⟩ := (mem_overlapIds _ _ _ _).mp hB
  have hrev : idA ∈ overlapIds (sortedValid steps) j sB := by
    rw [mem_overlapIds]
    exact ⟨i, sA, hgetA, fun he => hji he.symm, (steps_overlap_symm sA sB) ▸ hov, hkA.symm⟩
  have hpwB : overlapIds (sortedValid steps) j sB ≠ [] := List.ne_nil_of_mem hrev
  have hemitB : dpEmit (sortedValid steps) (j, sB) =
      some (idB, overlapIds (sortedValid steps) j sB) := by
    unfold dpEmit
    rw [if_neg hpwB, hidB]
  refine ⟨overlapIds (sortedValid steps) j sB, ?_, hrev⟩
  rw [lookup_eq_some_iff_mem _ hkeys]
  exact List.mem_filterMap.mpr ⟨(j, sB), List.mem_enum_iff_get?.mpr hgetB, hemitB⟩

/-- Claim C10: for every list of steps with pairwise distinct ids (as
produced by a parse run), no entry of the parallelism mapping contains
the id of its own step. -/
theorem C10_no_self_overlap (steps : List BuildStep)
    (hN : (steps.map BuildStep.step_id).Nodup) (id : String) (l : List String)
    (h : (detect_parallelism steps).lookup id = some l) : id ∉ l := by
  have hdp := detect_parallelism_eq steps hN
  have hkeys := dp_keys_nodup (sortedValid steps) (sortedValid steps).enum
    (sorted_enum_ids_nodup steps hN)
  rw [hdp] at h
  obtain ⟨⟨i, s⟩, hmem, hemit⟩ :=
    List.mem_filterMap.mp ((lookup_eq_some_iff_mem _ hkeys id l).mp h)
  obtain ⟨hk, hv, _⟩ := dpEmit_some _ _ _ hemit
  simp only [] at hk hv
  intro hmemid
  rw [hv] at hmemid
  obtain ⟨j, s2, hget2, hji, _, hid2⟩ := (mem_overlapIds _ _ _ _).mp hmemid
  have hgeti : (sortedValid steps).get? i = some s := List.mem_enum_iff_get?.mp hmem
  have hN2 := sortedValid_ids_nodup steps hN
  exact hji (nodup_ids_get_inj _ hN2 j i s2 s hget2 hgeti (hid2.trans (hk.trans rfl)))

/-! ## Claims about the timestamp extractor and the format detector -/

/-- Claim C2 (amended): when the leading token matches the timestamp
shape, the strip operation removes the matched span unconditionally
(regardless of semantic validity), and when semantic parsing of the
matched token fails the extractor yields no timestamp without raising.
The original claim said the span is removed only when semantic parsing
succeeds; the counterexample shows a semantically invalid prefix is
stripped as well. -/
theorem C2_timestamp_extractor (line : List Char) (p : DateParts)
    (rest : List Char) (hshape : tsShape line = some (p, rest)) :
    strip_timestamp line = rest ∧
      (parseDate p = none → extract_timestamp line = none) := by
  unfold strip_timestamp extract_timestamp
  rw [hshape]
  exact ⟨rfl, fun h => h⟩

theorem C2_timestamp_extractor_witness :
    strip_timestamp "2023-13-45T99:99:99 hello".data = "hello".data ∧
      (parseDate c2Parts = none →
        extract_timestamp "2023-13-45T99:99:99 hello".data = none) :=
  C2_timestamp_extractor "2023-13-45T99:99:99 hello".data c2Parts
    "hello".data (by decide)

/-- Claim C2 counterexample: a leading token that matches the timestamp
shape but fails semantic parsing (month 13) yields no timestamp, yet
the strip operation still removes the matched span, contradicting the
claim that the prefix is left on the line. -/
theorem C2_strip_counterexample :
    extract_timestamp "2023-13-45T99:99:99 hello".data = none ∧
    strip_timestamp "2023-13-45T99:99:99 hello".data = "hello".data ∧
    "2023-13-45T99:99:99 hello".data ≠ "hello".data := by decide

/-- Claim C6 (amended): format detection examines at most the first 20
raw lines (without filtering out empty ones first), and classifies the
document as concurrent format iff some such line, stripped of a leading
timestamp and surrounding whitespace, starts with a hash and contains
DONE, CACHED or an opening bracket. -/
theorem C6_detect_format (lines : List (List Char)) :
    detect_format lines = detect_format (lines.take 20) ∧
    (detect_format lines = true ↔ ∃ l ∈ lines.take 20,
      (pyStrip (strip_timestamp l)).head? = some '#' ∧
        (hasInfix "DONE".data (pyStrip (strip_timestamp l)) = true ∨
         hasInfix "CACHED".data (pyStrip (strip_timestamp l)) = true ∨
         (pyStrip (strip_timestamp l)).contains '[' = true)) := by
  constructor
  · unfold detect_format
    rw [List.take_take]
    norm_num
  · unfold detect_format
    rw [List.any_eq_true]
    constructor
    · rintro ⟨l, hl, hsig⟩
      refine ⟨l, hl, ?_⟩
      unfold bkSignal at hsig
      simp only [Bool.and_eq_true, Bool.or_eq_true, decide_eq_true_eq] at hsig
      exact ⟨hsig.1, or_assoc.mp hsig.2⟩
    · rintro ⟨l, hl, hhead, hbody⟩
      refine ⟨l, hl, ?_⟩
      unfold bkSignal
      simp only [Bool.and_eq_true, Bool.or_eq_true, decide_eq_true_eq]
      exact ⟨hhead, or_assoc.mpr hbody⟩

/-- Claim C6 counterexample: on a real document the detector scans the
first 20 raw lines (19 of them blank here) and classifies the document
as legacy, while the specification contract (non-empty-filtered lines)
would classify it as concurrent format. -/
theorem C6_detect_format_counterexample :
    docLines c6doc = c6lines ∧
    detect_format c6lines = false ∧
    detectFormatSpec c6lines = true := by decide

/-- Claim C4 (code bug): the returned first step of this parse run has
`is_cached = true` but `duration = 5.0` seconds (5000000 microseconds)
and `end_time` different from `start_time`: the lookahead branch of the
legacy parser overwrites the timing of a cached step, violating the
cache invariant the specification states.  (The branch at
`log_parser.py` lines 295-303 has no `is_cached` guard.) -/
theorem C4_cache_invariant_violated :
    ((parse_logs c4doc now0).bind List.head?).map
      (fun s => (s.is_cached, s.duration, decide (s.end_time = s.start_time))) =
    some (true, some 5000000, false) := by decide

/-- Claim C9 (code bug): `parse_logs` does not absorb every malformed
input: on this document the legacy lookahead subtracts a timezone-aware
timestamp from a naive start time, which raises `TypeError` in Python
(modelled by `none`), contradicting the never-raises claim. -/
theorem C9_parse_raises : parse_logs c9doc now0 = none := by decide

/-- Claim C3 counterexample: this document has no absolute timestamp on
any line and is classified legacy, yet the first returned step keeps
`duration = none` (not the claimed synthetic 1.0 seconds) and has no
end time: the legacy parser never invokes the relative-time
synthesizer. -/
theorem C3_legacy_counterexample :
    ((docLines c3doc).all (fun l => (extract_timestamp (pyStrip l)).isNone)) = true ∧
    detect_format (docLines c3doc) = false ∧
    ((parse_logs c3doc now0).bind List.head?).map
      (fun s => (s.duration, s.end_time)) = some (none, none) := by decide

/-! ## Digit-string lemmas for the id sort key -/

theorem matchHashId_digits (l idd r : List Char)
    (h : matchHashId l = some (idd, r)) :
    idd ≠ [] ∧ ∀ c ∈ idd, c.isDigit = true := by
  rcases l with _ | ⟨c, t⟩
  · cases h
  · simp only [matchHashId] at h
    by_cases hc : c = '#'
    · rw [if_pos hc] at h
      rcases t with _ | ⟨d, u⟩
      · cases h
      · simp only [eatDigits1] at h
        by_cases hd : d.isDigit
        · rw [if_pos hd] at h
          rw [Option.some.injEq, Prod.mk.injEq] at h
          rcases h with ⟨h1, _⟩
          subst h1
          refine ⟨by simp, ?_⟩
          intro x hx
          rcases List.mem_cons.mp hx with h1 | h1
          · rw [h1]; exact hd
          · exact List.mem_takeWhile_imp h1
        · rw [if_neg hd] at h; cases h
    · rw [if_neg hc] at h; cases h

theorem withHashId_some {γ : Type} (g : List Char → Option γ) (l idd : List Char)
    (z : γ) (h : withHashId g l = some (idd, z)) :
    ∃ r, matchHashId l = some (idd, r) := by
  unfold withHashId at h
  rcases hm : matchHashId l with _ | ⟨idd0, r0⟩
  · rw [hm] at h; simp at h
  · rw [hm] at h
    simp only [Option.bind_eq_bind, Option.some_bind] at h
    rcases hg : g r0 with _ | z0
    · rw [hg] at h; simp at h
    · rw [hg] at h
      simp only [Option.some_bind, Option.pure_def, Option.some.injEq,
        Prod.mk.injEq] at h
      exact ⟨r0, by rw [h.1]⟩

theorem digit_not_stripChar (c : Char) (h : c.isDigit = true) :
    stripIdChars.contains c = false := by
  by_contra hmem
  rw [Bool.not_eq_false] at hmem
  have : c ∈ stripIdChars := by
    simpa using hmem
  fin_cases this <;> simp_all

theorem digit_not_ws (c : Char) (h : c.isDigit = true) : isPySpace c = false := by
  unfold isPySpace
  by_contra hb
  rw [Bool.not_eq_false] at hb
  simp only [Bool.or_eq_true, decide_eq_true_eq] at hb
  rcases hb with ((((h1 | h1) | h1) | h1) | h1) | h1 <;> subst h1 <;>
    exact absurd h (by decide)

theorem dropWhile_of_forall_false {p : Char → Bool} (l : List Char)
    (h : ∀ c ∈ l, p c = false) : l.dropWhile p = l := by
  rcases l with _ | ⟨c, t⟩
  · rfl
  · rw [List.dropWhile_cons, if_neg]
    rw [h c (List.mem_cons_self c t)]
    simp

theorem pyStrip_of_no_ws (l : List Char) (h : ∀ c ∈ l, isPySpace c = false) :
    pyStrip l = l := by
  unfold pyStrip
  rw [dropWhile_of_forall_false l h,
    dropWhile_of_forall_false l.reverse (fun c hc => h c (List.mem_reverse.mp hc)),
    List.reverse_reverse]

theorem digitsU_isSome (l : List Char) (h : ∀ c ∈ l, c.isDigit = true) :
    (digitsU l).isSome := by
  induction l with
  | nil => simp [digitsU]
  | cons c t ih =>
    have hc : c.isDigit = true := h c (List.mem_cons_self c t)
    have hne : ¬(c = '_') := by
      intro he; subst he; exact absurd hc (by decide)
    rw [digitsU.eq_def]
    split
    · simp
    · rename_i c2 t2 heq
      injection heq with h1 h2
      exact absurd h1 hne
    · rename_i heq
      injection heq with h1 h2
      exact absurd h1 hne
    · rename_i c2 t2 heq
      injection heq with h1 h2
      subst h1
      subst h2
      rw [if_pos hc]
      have ht := ih (fun x hx => h x (List.mem_cons_of_mem c hx))
      rcases hd : digitsU t with _ | ds
      · rw [hd] at ht; simp at ht
      · simp

theorem pyIntDigits_isSome (l : List Char) (hne : l ≠ [])
    (h : ∀ c ∈ l, c.isDigit = true) : (pyIntDigits l).isSome := by
  rcases l with _ | ⟨c, t⟩
  · exact absurd rfl hne
  · rw [pyIntDigits]
    rw [if_pos (h c (List.mem_cons_self c t))]
    have ht := digitsU_isSome t (fun x hx => h x (List.mem_cons_of_mem c hx))
    rcases hd : digitsU t with _ | ds
    · rw [hd] at ht; simp at ht
    · simp

theorem pyInt?_digits (l : List Char) (hne : l ≠ [])
    (h : ∀ c ∈ l, c.isDigit = true) : (pyInt? l).isSome := by
  rw [pyInt?]
  rw [pyStrip_of_no_ws l (fun c hc => digit_not_ws c (h c hc))]
  rcases l with _ | ⟨c, t⟩
  · exact absurd rfl hne
  · have hc := h c (List.mem_cons_self c t)
    rw [show ((match (c :: t : List Char) with
      | [] => none
      | c :: rest =>
        if c = '-' then (pyIntDigits rest).map (fun n => -(n : Int))
        else if c = '+' then (pyIntDigits rest).map (fun n => (n : Int))
        else (pyIntDigits (c :: rest)).map (fun n => (n : Int))) : Option Int) =
      (if c = '-' then (pyIntDigits t).map (fun n => -(n : Int))
       else if c = '+' then (pyIntDigits t).map (fun n => (n : Int))
       else (pyIntDigits (c :: t)).map (fun n => (n : Int))) from rfl]
    rw [if_neg (by intro he; subst he; exact absurd hc (by decide)),
        if_neg (by intro he; subst he; exact absurd hc (by decide))]
    have := pyIntDigits_isSome (c :: t) (by simp) h
    rcases hd : pyIntDigits (c :: t) with _ | n
    · rw [hd] at this; simp at this
    · simp

theorem pyInt?_neg_digits (l : List Char) (hne : l ≠ [])
    (h : ∀ c ∈ l, c.isDigit = true) : (pyInt? ('-' :: l)).isSome := by
  rw [pyInt?]
  have hnw : ∀ c ∈ '-' :: l, isPySpace c = false := by
    intro c hc
    rcases List.mem_cons.mp hc with h1 | h1
    · subst h1; decide
    · exact digit_not_ws c (h c h1)
  rw [pyStrip_of_no_ws _ hnw]
  rw [show ((match ('-' :: l : List Char) with
    | [] => none
    | c :: rest =>
      if c = '-' then (pyIntDigits rest).map (fun n => -(n : Int))
      else if c = '+' then (pyIntDigits rest).map (fun n => (n : Int))
      else (pyIntDigits (c :: rest)).map (fun n => (n : Int))) : Option Int) =
    (if ('-' : Char) = '-' then (pyIntDigits l).map (fun n => -(n : Int))
     else if ('-' : Char) = '+' then (pyIntDigits l).map (fun n => (n : Int))
     else (pyIntDigits ('-' :: l)).map (fun n => (n : Int))) from rfl]
  rw [if_pos rfl]
  have := pyIntDigits_isSome l hne h
  rcases hd : pyIntDigits l with _ | n
  · rw [hd] at this; simp at this
  · simp

theorem dropWhile_strip_hash_digits (idd : List Char) (hne : idd ≠ [])
    (h : ∀ c ∈ idd, c.isDigit = true) :
    (('#' :: idd).dropWhile (fun c => stripIdChars.contains c)) = idd := by
  rw [List.dropWhile_cons, if_pos (by decide)]
  rcases idd with _ | ⟨c, t⟩
  · exact absurd rfl hne
  · rw [List.dropWhile_cons, if_neg]
    rw [digit_not_stripChar c (h c (List.mem_cons_self c t))]
    simp

/-- The sort key parses on every id of the form hash + digit run. -/
theorem sortKeyOf_hash_digits (idd : List Char) (hne : idd ≠ [])
    (h : ∀ c ∈ idd, c.isDigit = true) :
    (sortKeyOf (mkId idd)).isSome := by
  rw [sortKeyOf, mkId]
  rw [show (String.mk ('#' :: idd)).data = '#' :: idd from rfl]
  rw [dropWhile_strip_hash_digits idd hne h]
  exact pyInt?_digits idd hne h

theorem natRepr_digits (n : Nat) : ∀ c ∈ natRepr n, c.isDigit = true := by
  unfold natRepr
  by_cases hn : n = 0
  · rw [if_pos hn]
    intro c hc
    simp only [List.mem_singleton] at hc
    subst hc; decide
  · rw [if_neg hn]
    intro c hc
    rw [List.mem_reverse, List.mem_map] at hc
    obtain ⟨d, hd, hcd⟩ := hc
    have hlt : d < 10 := Nat.digits_lt_base (by norm_num) hd
    subst hcd
    interval_cases d <;> decide

theorem natRepr_ne_nil (n : Nat) : natRepr n ≠ [] := by
  unfold natRepr
  by_cases hn : n = 0
  · rw [if_pos hn]; simp
  · rw [if_neg hn]
    simp only [ne_eq, List.reverse_eq_nil_iff, List.map_eq_nil_iff]
    exact Nat.digits_ne_nil_iff_ne_zero.mpr hn

/-- The sort key parses on every fallback id `"#" + str(int)`. -/
theorem sortKeyOf_hash_intRepr (n : Int) :
    (sortKeyOf (String.mk ('#' :: intRepr n))).isSome := by
  unfold intRepr
  by_cases hn : n < 0
  · rw [if_pos hn]
    rw [sortKeyOf]
    rw [show (String.mk ('#' :: '-' :: natRepr (-n).toNat)).data =
      '#' :: '-' :: natRepr (-n).toNat from rfl]
    rw [List.dropWhile_cons, if_pos (by decide), List.dropWhile_cons,
      if_neg (by decide)]
    exact pyInt?_neg_digits _ (natRepr_ne_nil _) (natRepr_digits _)
  · rw [if_neg hn]
    exact sortKeyOf_hash_digits _ (natRepr_ne_nil _) (natRepr_digits _)

theorem synthWalk_map_id (c : Timestamp) (ss : List BuildStep) :
    (synthWalk c ss).map BuildStep.step_id = ss.map BuildStep.step_id := by
  induction ss generalizing c with
  | nil => rfl
  | cons s t ih =>
    rw [synthWalk]
    by_cases hc : s.is_cached
    · rw [if_pos hc]
      simp only [List.map_cons]
      rw [ih]
    · rw [if_neg hc]
      rcases s.duration with _ | d <;> simp only [List.map_cons] <;> rw [ih]

theorem synthWalk_head_start (c : Timestamp) (ss : List BuildStep) :
    ∀ t ∈ (synthWalk c ss).head?, t.start_time = some c := by
  rcases ss with _ | ⟨s, rest⟩
  · simp [synthWalk]
  · rw [synthWalk]
    by_cases hc : s.is_cached
    · rw [if_pos hc]; simp
    · rw [if_neg hc]
      rcases s.duration with _ | d <;> simp

theorem synthWalk_chain (c : Timestamp) (ss : List BuildStep) :
    List.Chain' endLeStart (synthWalk c ss) := by
  induction ss generalizing c with
  | nil => simp [synthWalk]
  | cons s rest ih =>
    rw [synthWalk]
    by_cases hc : s.is_cached
    · rw [if_pos hc]
      rw [List.chain'_cons']
      refine ⟨?_, ih c⟩
      intro y hy
      exact ⟨c, _, rfl, (synthWalk_head_start c rest y hy), le_refl _⟩
    · rw [if_neg hc]
      rcases s.duration with _ | d
      · rw [List.chain'_cons']
        refine ⟨?_, ih (tsAdd c 1000000)⟩
        intro y hy
        exact ⟨tsAdd c 1000000, _, rfl,
          (synthWalk_head_start (tsAdd c 1000000) rest y hy), le_refl _⟩
      · rw [List.chain'_cons']
        refine ⟨?_, ih (tsAdd c d)⟩
        intro y hy
        exact ⟨tsAdd c d, _, rfl,
          (synthWalk_head_start (tsAdd c d) rest y hy), le_refl _⟩

theorem synthWalk_forall₂ (c : Timestamp) (ss : List BuildStep)
    (hc : ∀ s ∈ ss, s.is_cached = true → s.duration.isSome) :
    List.Forall₂ (fun s t => s.duration = none → t.duration = some 1000000)
      ss (synthWalk c ss) := by
  induction ss generalizing c with
  | nil => exact List.Forall₂.nil
  | cons s rest ih =>
    rw [synthWalk]
    by_cases hcs : s.is_cached
    · rw [if_pos hcs]
      refine List.Forall₂.cons ?_ (ih c (fun x hx => hc x (List.mem_cons_of_mem s hx)))
      intro hdn
      have := hc s (List.mem_cons_self s rest) hcs
      rw [hdn] at this
      simp at this
    · rw [if_neg hcs]
      rcases hd : s.duration with _ | d
      · refine List.Forall₂.cons (fun _ => rfl)
          (ih (tsAdd c 1000000) (fun x hx => hc x (List.mem_cons_of_mem s hx)))
      · refine List.Forall₂.cons ?_
          (ih (tsAdd c d) (fun x hx => hc x (List.mem_cons_of_mem s hx)))
        intro hdn
        rw [hd] at hdn
        cases hdn

theorem synthWalk_mem (c : Timestamp) (ss : List BuildStep)
    (hc : ∀ s ∈ ss, s.is_cached = true → s.duration.isSome) :
    ∀ t ∈ synthWalk c ss,
      t.start_time.isSome ∧ t.end_time.isSome ∧ t.duration.isSome := by
  induction ss generalizing c with
  | nil => simp [synthWalk]
  | cons s rest ih =>
    rw [synthWalk]
    by_cases hcs : s.is_cached
    · rw [if_pos hcs]
      intro t ht
      rcases List.mem_cons.mp ht with h1 | h1
      · subst h1
        exact ⟨rfl, rfl, hc s (List.mem_cons_self s rest) hcs⟩
      · exact ih c (fun x hx => hc x (List.mem_cons_of_mem s hx)) t h1
    · rw [if_neg hcs]
      rcases hd : s.duration with _ | d
      · intro t ht
        rcases List.mem_cons.mp ht with h1 | h1
        · subst h1; exact ⟨rfl, rfl, rfl⟩
        · exact ih (tsAdd c 1000000) (fun x hx => hc x (List.mem_cons_of_mem s hx)) t h1
      · intro t ht
        rcases List.mem_cons.mp ht with h1 | h1
        · subst h1
          refine ⟨rfl, rfl, ?_⟩
          simp
        · exact ih (tsAdd c d) (fun x hx => hc x (List.mem_cons_of_mem s hx)) t h1

/-! ## The BuildKit fold invariant -/

theorem mem_of_lookup_eq_some {β : Type} {l : List (String × β)} {k : String}
    {v : β} (h : l.lookup k = some v) : (k, v) ∈ l := by
  induction l with
  | nil => cases h
  | cons a t ih =>
    rcases a with ⟨k2, v2⟩
    rw [List.lookup_cons] at h
    by_cases hk : k = k2
    · subst hk
      rw [beq_self_eq_true] at h
      simp only [] at h
      cases h
      exact List.mem_cons_self _ _
    · rw [beq_eq_false_iff_ne.mpr hk] at h
      simp only [] at h
      exact List.mem_cons_of_mem _ (ih h)

theorem dictSet_map_fst {β : Type} (k : String) (v : β) (l : List (String × β)) :
    (dictSet k v l).map Prod.fst =
      if k ∈ l.map Prod.fst then l.map Prod.fst else l.map Prod.fst ++ [k] := by
  induction l with
  | nil => simp [dictSet]
  | cons a t ih =>
    rw [show dictSet k v (a :: t) =
      (if a.1 = k then (k, v) :: t else a :: dictSet k v t) from rfl]
    by_cases hk : a.1 = k
    · rw [if_pos hk]
      simp [hk]
    · rw [if_neg hk]
      simp only [List.map_cons, ih]
      by_cases hmem : k ∈ t.map Prod.fst
      · rw [if_pos hmem, if_pos (List.mem_cons_of_mem _ hmem)]
      · rw [if_neg hmem, if_neg ?_]
        · simp
        · intro hc
          rcases List.mem_cons.mp hc with h1 | h1
          · exact hk h1.symm
          · exact hmem h1

theorem dictSet_keys_nodup {β : Type} (k : String) (v : β) (l : List (String × β))
    (h : (l.map Prod.fst).Nodup) : ((dictSet k v l).map Prod.fst).Nodup := by
  rw [dictSet_map_fst]
  by_cases hmem : k ∈ l.map Prod.fst
  · rw [if_pos hmem]; exact h
  · rw [if_neg hmem]
    rw [List.nodup_append]
    exact ⟨h, List.nodup_singleton k, by simpa using fun hc => hmem hc⟩

theorem InvInfo_dictSet (info : List (String × BuildStep)) (hinv : InvInfo info)
    (k : String) (v : BuildStep) (hid : v.step_id = k)
    (hstart : v.start_time.isSome = true)
    (hcache : v.is_cached = true → v.duration.isSome = true)
    (hkey : (sortKeyOf k).isSome = true) : InvInfo (dictSet k v info) := by
  refine ⟨dictSet_keys_nodup k v info hinv.1, ?_⟩
  intro q hq
  rcases mem_dictSet k v info q hq with h1 | h1
  · subst h1
    exact ⟨hid, hstart, hcache, hkey⟩
  · exact hinv.2 q h1

theorem bkDispatch_inv (now : Timestamp) (st : BkState) (ts : Option Timestamp)
    (l : List Char) (hb : st.buildStart = none) (hi : InvInfo st.info) :
    (bkDispatch now st ts l).buildStart = none ∧
      InvInfo (bkDispatch now st ts l).info := by
  unfold bkDispatch
  rcases hc : matchCached l with _ | ⟨idd, ext⟩
  case' some =>
    obtain ⟨r, hm⟩ := withHashId_some _ _ _ _ hc
    obtain ⟨hne, hdig⟩ := matchHashId_digits _ _ _ hm
    have hkey := sortKeyOf_hash_digits idd hne hdig
    rcases ext with _ | ⟨label, km, desc⟩
    · simp only []
      rcases hl : st.info.lookup (mkId idd) with _ | s
      · exact ⟨hb, hi⟩
      · have hq := hi.2 _ (mem_of_lookup_eq_some hl)
        exact ⟨hb, InvInfo_dictSet _ hi _ _ hq.1 hq.2.1 (fun _ => rfl) hkey⟩
    · simp only []
      exact ⟨hb, InvInfo_dictSet _ hi _ _ rfl rfl (fun _ => rfl) hkey⟩
  case none =>
  simp only []
  rcases hs : matchStart l with _ | ⟨idd, label, km, desc⟩
  case' some =>
    obtain ⟨r, hm⟩ := withHashId_some _ _ _ _ hs
    obtain ⟨hne, hdig⟩ := matchHashId_digits _ _ _ hm
    have hkey := sortKeyOf_hash_digits idd hne hdig
    simp only []
    by_cases hmem : st.startTimes.contains (mkId idd)
    · rw [if_pos hmem]
      exact ⟨hb, hi⟩
    · rw [if_neg hmem]
      exact ⟨hb, InvInfo_dictSet _ hi _ _ rfl rfl (fun hcc => by cases hcc) hkey⟩
  case none =>
  simp only []
  rcases hd : matchDone l with _ | ⟨idd, dur⟩
  case' some =>
    simp only []
    rcases hl : st.info.lookup (mkId idd) with _ | s
    · exact ⟨hb, hi⟩
    · have hq := hi.2 _ (mem_of_lookup_eq_some hl)
      simp only []
      by_cases hic : s.is_cached
      · rw [if_pos hic]
        exact ⟨hb, hi⟩
      · rw [if_neg hic]
        rcases hss : s.start_time with _ | stt
        · rw [hss] at hq
          simp at hq
        · simp only []
          refine ⟨hb, InvInfo_dictSet _ hi _ _ hq.1 rfl ?_ hq.2.2.2⟩
          intro hcc
          exact absurd hcc hic
  case none =>
  simp only []
  by_cases hp : matchProgress l
  · rw [if_pos hp]
    exact ⟨hb, hi⟩
  · rw [if_neg hp]
    rcases hsi : matchSimple l with _ | ⟨idd, label, desc⟩
    · simp only []
      rcases hx : matchExtracting l with _ | ⟨idd, odur⟩
      · simp only []
        by_cases hlo : matchLoading l
        · rw [if_pos hlo]
          exact ⟨hb, hi⟩
        · rw [if_neg hlo]
          by_cases htr : matchTransferring l
          · rw [if_pos htr]
            exact ⟨hb, hi⟩
          · rw [if_neg htr]
            by_cases hco : matchContinuation l
            · rw [if_pos hco]
              exact ⟨hb, hi⟩
            · rw [if_neg hco]
              by_cases hfb : (pyStrip l).head? = some '#' ∧ l.contains ' '
              · rw [if_pos hfb]
                by_cases hparts : 2 ≤ (pySplitChar ' ' 2 (pyStrip l)).length ∧
                    ((pySplitChar ' ' 2 (pyStrip l)).headD []).head? = some '#'
                · rw [if_pos hparts]
                  rcases hpi :
                      pyInt? (((pySplitChar ' ' 2 (pyStrip l)).headD []).drop 1)
                      with _ | n
                  · exact ⟨hb, hi⟩
                  · simp only []
                    have hkey := sortKeyOf_hash_intRepr n
                    rcases hl : st.info.lookup (String.mk ('#' :: intRepr n))
                        with _ | s
                    · exact ⟨hb,
                        InvInfo_dictSet _ hi _ _ rfl rfl
                          (fun hcc => by cases hcc) hkey⟩
                    · exact ⟨hb, hi⟩
                · rw [if_neg hparts]
                  exact ⟨hb, hi⟩
              · rw [if_neg hfb]
                exact ⟨hb, hi⟩
      · simp only []
        rcases hl : st.info.lookup (mkId idd) with _ | s
        · exact ⟨hb, hi⟩
        · have hq := hi.2 _ (mem_of_lookup_eq_some hl)
          simp only []
          rcases odur with _ | d
          · exact ⟨hb, hi⟩
          · exact ⟨hb, InvInfo_dictSet _ hi _ _ hq.1 hq.2.1 (fun _ => rfl) hq.2.2.2⟩
    · obtain ⟨r, hm⟩ := withHashId_some _ _ _ _ hsi
      obtain ⟨hne, hdig⟩ := matchHashId_digits _ _ _ hm
      have hkey := sortKeyOf_hash_digits idd hne hdig
      simp only []
      rcases hl : st.info.lookup (mkId idd) with _ | s
      · exact ⟨hb, InvInfo_dictSet _ hi _ _ rfl rfl (fun hcc => by cases hcc) hkey⟩
      · exact ⟨hb, hi⟩

theorem bkStep_inv (now : Timestamp) (st : BkState) (raw : List Char)
    (hts : extract_timestamp (pyStrip raw) = none)
    (hb : st.buildStart = none) (hi : InvInfo st.info) :
    (bkStep now st raw).buildStart = none ∧ InvInfo (bkStep now st raw).info := by
  unfold bkStep
  by_cases h0 : pyStrip raw = []
  · rw [if_pos h0]
    exact ⟨hb, hi⟩
  · rw [if_neg h0, hts]
    simp only [Option.isSome_none, Bool.false_and, Bool.false_eq_true, if_false]
    have heta : ({ st with buildStart := st.buildStart } : BkState) = st := rfl
    rw [heta]
    exact bkDispatch_inv now st none _ hb hi

theorem InvInfo_nil : InvInfo [] := ⟨List.nodup_nil, by simp⟩

theorem bkFold_inv (now : Timestamp) (lines : List (List Char))
    (hts : ∀ l ∈ lines, extract_timestamp (pyStrip l) = none) :
    (bkFold now lines).buildStart = none ∧ InvInfo (bkFold now lines).info := by
  have main : ∀ ls : List (List Char),
      (∀ l ∈ ls, extract_timestamp (pyStrip l) = none) →
      ∀ st : BkState, st.buildStart = none → InvInfo st.info →
        (ls.foldl (bkStep now) st).buildStart = none ∧
          InvInfo (ls.foldl (bkStep now) st).info := by
    intro ls
    induction ls with
    | nil => intro _ st h1 h2; exact ⟨h1, h2⟩
    | cons a t ih =>
      intro hls st h1 h2
      rw [List.foldl_cons]
      have hstep := bkStep_inv now st a (hls a (List.mem_cons_self a t)) h1 h2
      exact ih (fun l hl => hls l (List.mem_cons_of_mem a hl)) _ hstep.1 hstep.2
  exact main lines hts bkInit rfl InvInfo_nil

/-- Claim C3 (amended): for every document classified as concurrent
format by the detector and containing no parseable absolute timestamp on
any line, the BuildKit parser invokes the relative-time synthesizer
before returning: the parse succeeds, the synthesized timeline is
monotone (each step starts no earlier than the previous one ends),
every step of the sorted input lacking an explicit duration is assigned
exactly 1.0 second (1000000 microseconds), and every returned step has
a start time, an end time and a duration.  The legacy parser never
invokes the synthesizer (see the counterexample). -/
theorem C3_concurrent_synthesizer (doc : String) (now : Timestamp)
    (hfmt : detect_format (docLines doc) = true)
    (hts : ∀ l ∈ docLines doc, extract_timestamp (pyStrip l) = none) :
    parse_logs doc now =
      some (reassemble (bkVals now (docLines doc)) (bkProc now (docLines doc))) ∧
    List.Chain' endLeStart (bkProc now (docLines doc)) ∧
    List.Forall₂ (fun s t => s.duration = none → t.duration = some 1000000)
      (sortById (bkVals now (docLines doc))) (bkProc now (docLines doc)) ∧
    ∀ s ∈ reassemble (bkVals now (docLines doc)) (bkProc now (docLines doc)),
      s.start_time.isSome = true ∧ s.end_time.isSome = true ∧
        s.duration.isSome = true := by
  have hinv := bkFold_inv now (docLines doc) hts
  have hcached : ∀ s ∈ bkVals now (docLines doc),
      s.is_cached = true → s.duration.isSome = true := by
    intro s hs
    obtain ⟨q, hq, rfl⟩ := List.mem_map.mp hs
    exact (hinv.2.2 q hq).2.2.1
  have hkeys : (bkVals now (docLines doc)).all
      (fun s => (sortKeyOf s.step_id).isSome) = true := by
    rw [List.all_eq_true]
    intro s hs
    obtain ⟨q, hq, rfl⟩ := List.mem_map.mp hs
    have h := hinv.2.2 q hq
    rw [h.1]
    exact h.2.2.2
  have hsc : ∀ s ∈ sortById (bkVals now (docLines doc)),
      s.is_cached = true → s.duration.isSome = true := by
    intro s hs
    exact hcached s ((List.perm_insertionSort _ _).mem_iff.mp hs)
  have h1 : parse_logs doc now =
      some (reassemble (bkVals now (docLines doc)) (bkProc now (docLines doc))) := by
    unfold parse_logs
    rw [if_pos hfmt]
    simp only [parse_buildkit_logs]
    rw [hinv.1]
    simp only [calculate_relative_times]
    rw [show ((bkFold now (docLines doc)).info.map Prod.snd) =
      bkVals now (docLines doc) from rfl]
    rw [if_pos hkeys]
    rw [Option.map_some']
    rfl
  refine ⟨h1, synthWalk_chain now _, synthWalk_forall₂ now _ hsc, ?_⟩
  intro s hs
  obtain ⟨v, hv, heq⟩ := List.mem_map.mp hs
  have hidmem : v.step_id ∈ (bkProc now (docLines doc)).map BuildStep.step_id := by
    rw [bkProc, synthWalk_map_id]
    exact ((List.perm_insertionSort _ _).map BuildStep.step_id).mem_iff.mpr
      (List.mem_map_of_mem BuildStep.step_id hv)
  obtain ⟨t, ht, hid⟩ := List.mem_map.mp hidmem
  have hfind : ((bkProc now (docLines doc)).find?
      (fun t2 => t2.step_id == v.step_id)).isSome := by
    rw [List.find?_isSome]
    exact ⟨t, ht, beq_iff_eq.mpr hid⟩
  rcases hf : (bkProc now (docLines doc)).find?
      (fun t2 => t2.step_id == v.step_id) with _ | t0
  · rw [hf] at hfind; simp at hfind
  · have ht0 := List.mem_of_find?_eq_some hf
    have hprops := synthWalk_mem now (sortById (bkVals now (docLines doc))) hsc t0 ht0
    rw [← heq, hf]
    simpa using hprops

theorem C3_concurrent_synthesizer_witness :
    (detect_format (docLines c3wdoc) = true) ∧
    (parse_logs c3wdoc now0 =
      some (reassemble (bkVals now0 (docLines c3wdoc))
        (bkProc now0 (docLines c3wdoc))) ∧
     List.Chain' endLeStart (bkProc now0 (docLines c3wdoc)) ∧
     List.Forall₂ (fun s t => s.duration = none → t.duration = some 1000000)
       (sortById (bkVals now0 (docLines c3wdoc)))
       (bkProc now0 (docLines c3wdoc)) ∧
     ∀ s ∈ reassemble (bkVals now0 (docLines c3wdoc))
         (bkProc now0 (docLines c3wdoc)),
       s.start_time.isSome = true ∧ s.end_time.isSome = true ∧
         s.duration.isSome = true) :=
  ⟨by decide, C3_concurrent_synthesizer c3wdoc now0 (by decide) (by decide)⟩

theorem C1_identify_bottlenecks_spec_witness :
    identify_bottlenecks [wStep] 75 = some (bottlenecksSpec [wStep] 75) :=
  C1_identify_bottlenecks_spec [wStep] 75 (by norm_num) (by norm_num)

/-- Claim C1 counterexample: at percentile exactly 100 the computed rank
equals the number of durations, the list lookup is out of range and the
source raises IndexError (`none`), while the clamped-rank contract of
the specification would return the maximal-duration step. -/
theorem C1_clamping_counterexample :
    identify_bottlenecks [wStep] 100 = none ∧
      bottlenecksSpec [wStep] 100 = [wStep] := by
  constructor
  · have h : rankIndex 1 100 = 1 := by norm_num [rankIndex, pyTrunc]
    simp [identify_bottlenecks, wStep, h, pyIndex]
  · have h : (⌊((1 : Nat) : ℚ) * 100 / 100⌋ : Int) = 1 := by norm_num
    simp [bottlenecksSpec, wStep, h]

theorem ib_wStep_50 : identify_bottlenecks [wStep] 50 = some [wStep] := by
  have h : rankIndex 1 50 = 0 := by norm_num [rankIndex, pyTrunc]
  simp [identify_bottlenecks, wStep, h, pyIndex]

theorem ib_wStep_60 : identify_bottlenecks [wStep] 60 = some [wStep] := by
  have h : rankIndex 1 60 = 0 := by norm_num [rankIndex, pyTrunc]
  simp [identify_bottlenecks, wStep, h, pyIndex]

theorem C8_percentile_monotonic_witness :
    ([wStep] : List BuildStep).length ≤ ([wStep] : List BuildStep).length :=
  C8_percentile_monotonic [wStep] 50 60 (by norm_num) (by norm_num)
    (by norm_num) [wStep] [wStep] ib_wStep_50 ib_wStep_60

/-- Claim C8 counterexample: with a single five-second step, raising
the percentile from 50 (which returns the step) to 100 does not return
a smaller list: it raises IndexError (`none`), so the claimed
comparison of returned counts fails on the inclusive bound 100. -/
theorem C8_percentile_counterexample :
    identify_bottlenecks [wStep] 50 = some [wStep] ∧
      identify_bottlenecks [wStep] 100 = none := by
  constructor
  · exact ib_wStep_50
  · have h : rankIndex 1 100 = 1 := by norm_num [rankIndex, pyTrunc]
    simp [identify_bottlenecks, wStep, h, pyIndex]

theorem C5_overlap_criterion_witness : steps_overlap ovA ovB = true :=
  (C5_overlap_criterion.1 ovA ovB { usec := 0, aware := false }
    { usec := 2, aware := false } { usec := 1, aware := false }
    { usec := 3, aware := false } rfl rfl rfl rfl).mpr (by decide)

theorem C7_overlap_symmetry_witness :
    ∃ lB, (detect_parallelism [ovA, ovB]).lookup "B" = some lB ∧ "A" ∈ lB :=
  C7_overlap_symmetry [ovA, ovB] (by decide) "A" "B" ["B"] (by decide) (by decide)

/-- Claim C7 counterexample: with a duplicated id the second X step
overwrites the dict entry of the first, so the entry of A contains X
but the entry of X no longer contains A: the returned mapping is not
symmetric for arbitrary step lists. -/
theorem C7_symmetry_counterexample :
    (detect_parallelism c7steps).lookup "A" = some ["X"] ∧
    (detect_parallelism c7steps).lookup "X" = some ["B"] ∧
    ("A" : String) ∉ (["B"] : List String) := by decide

theorem C10_no_self_overlap_witness : ("A" : String) ∉ (["B"] : List String) :=
  C10_no_self_overlap [ovA, ovB] (by decide) "A" ["B"] (by decide)
